import Mathlib

/-!
Verification development for `scripts/domdef.py` (domain-definition file
converter).  The Python code is shallowly embedded: strings are modelled as
`List Char`, a file by its full character contents, and each serializer
returns the (unchanged) model together with the lines it writes.  Ordered
dictionaries are modelled as association lists with overwrite-in-place
insertion (`odInsert`).
-/

set_option linter.unusedVariables false

def lit (s : String) : List Char := s.data

/-- Python `str.isspace` on the ASCII whitespace characters used by
`str.strip()` / `str.split()`. -/
def isSpace (c : Char) : Bool :=
  decide (c = ' ' ∨ c = '\t' ∨ c = '\n' ∨ c = '\r' ∨ c = '\x0b' ∨ c = '\x0c')

/-- Remove leading whitespace (first half of Python `str.strip()`). -/
def dropLead (cs : List Char) : List Char := cs.dropWhile (fun c => isSpace c)

/-- Remove trailing whitespace (second half of Python `str.strip()`). -/
def dropTrail : List Char → List Char
  | [] => []
  | c :: cs =>
    match dropTrail cs with
    | [] => if isSpace c then [] else [c]
    | d :: ds => c :: d :: ds

/-- Python `str.strip()`. -/
def strip (cs : List Char) : List Char := dropTrail (dropLead cs)

/-- Helper for `words`: `cur` is the reversed current word. -/
def wordsAux (cur : List Char) : List Char → List (List Char)
  | [] => if cur.isEmpty then [] else [cur.reverse]
  | c :: cs =>
    if isSpace c then
      if cur.isEmpty then wordsAux [] cs else cur.reverse :: wordsAux [] cs
    else wordsAux (c :: cur) cs

/-- Python `str.split()` with no separator: split on whitespace runs,
dropping empty fields. -/
def words (cs : List Char) : List (List Char) := wordsAux [] cs

/-- Python `" ".join(...)`. -/
def joinSpace : List (List Char) → List Char
  | [] => []
  | [w] => w
  | w :: ws => w ++ ' ' :: joinSpace ws

/-- Split file contents into lines at `'\n'` (Python line iteration after
`strip` has removed the terminators). -/
def splitLines : List Char → List (List Char)
  | [] => [[]]
  | c :: cs =>
    if c = '\n' then [] :: splitLines cs
    else
      match splitLines cs with
      | [] => [[c]]
      | l :: ls => (c :: l) :: ls

/-- Concatenate lines, terminating each with a newline (each `write` call of
the Python code ends in `"\n"`). -/
def joinLines (ls : List (List Char)) : List Char :=
  ls.flatMap (fun l => l ++ ['\n'])

def digitVal (c : Char) : Nat := c.toNat - 48

def isDigitCh (c : Char) : Bool := decide (48 ≤ c.toNat ∧ c.toNat ≤ 57)

def allDigits (cs : List Char) : Bool := cs.all isDigitCh

def digitsToNat (cs : List Char) : Nat := cs.foldl (fun a c => 10 * a + digitVal c) 0

/-- Python `int(s)` on a whitespace-free field: optional sign followed by at
least one decimal digit; anything else raises `ValueError`. -/
def parseInt (cs : List Char) : Option Int :=
  match cs with
  | '-' :: rest =>
    if rest ≠ [] ∧ allDigits rest = true then some (-(digitsToNat rest : Int)) else none
  | '+' :: rest =>
    if rest ≠ [] ∧ allDigits rest = true then some ((digitsToNat rest : Int)) else none
  | _ =>
    if cs ≠ [] ∧ allDigits cs = true then some ((digitsToNat cs : Int)) else none

def digChar (n : Nat) : Char :=
  match n with
  | 0 => '0'
  | 1 => '1'
  | 2 => '2'
  | 3 => '3'
  | 4 => '4'
  | 5 => '5'
  | 6 => '6'
  | 7 => '7'
  | 8 => '8'
  | _ => '9'

/-- Decimal digits of `n`, fuelled to keep the recursion structural. -/
def natCharsAux : Nat → Nat → List Char
  | 0, _ => []
  | fuel + 1, n =>
    if n < 10 then [digChar n]
    else natCharsAux fuel (n / 10) ++ [digChar (n % 10)]

/-- Python `str(n)` for a natural number. -/
def natChars (n : Nat) : List Char := natCharsAux (n + 1) n

/-- Python `str(i)` for an integer. -/
def intChars (i : Int) : List Char :=
  if i < 0 then '-' :: natChars i.natAbs else natChars i.toNat

/-- Python `"%-Ns" % s`: left-justify in a field of width `w`. -/
def padRight (cs : List Char) (w : Nat) : List Char :=
  cs ++ List.replicate (w - cs.length) ' '

/-- Python `"%Nd" % i` applied to already-rendered digits: right-justify. -/
def padLeft (cs : List Char) (w : Nat) : List Char :=
  List.replicate (w - cs.length) ' ' ++ cs

def squote : Char := Char.ofNat 39

def reprChar (c : Char) : List Char :=
  if c = '\\' then ['\\', '\\']
  else if c = squote then ['\\', squote]
  else if c = '\n' then ['\\', 'n']
  else if c = '\r' then ['\\', 'r']
  else if c = '\t' then ['\\', 't']
  else [c]

/-- Python `repr` of a string (`"%r"`), simplified to always use single
quotes; only used inside a header comment line. -/
def pyRepr (cs : List Char) : List Char := squote :: (cs.flatMap reprChar ++ [squote])

/-- `OrderedDict.__setitem__`: overwrite in place if the key is present,
otherwise append. -/
def odInsert {β : Type} (m : List (List Char × β)) (k : List Char) (v : β) :
    List (List Char × β) :=
  match m with
  | [] => [(k, v)]
  | p :: rest => if p.1 = k then (k, v) :: rest else p :: odInsert rest k v

/-- `OrderedDict.__getitem__` (as an `Option`). -/
def odLookup {β : Type} (m : List (List Char × β)) (k : List Char) : Option β :=
  match m with
  | [] => none
  | p :: rest => if p.1 = k then some p.2 else odLookup rest k

/-- Deduplicate a list of names keeping the first occurrence of each. -/
def keepFirst : List (List Char) → List (List Char)
  | [] => []
  | x :: xs => x :: (keepFirst xs).filter (fun y => decide (y ≠ x))

/-- The mutable state built up by `DomDef.load` while scanning lines. -/
structure LoadSt where
  domains : List (List Char × Int × Int)
  compounds : List (List Char × List Char)
  domain_order : List (List Char)
deriving DecidableEq

/-- Abstract error kinds of loading: `formatError` models the `ValueError`
raised by tuple unpacking / `int()` on a malformed simple-definition line;
`emptyModel` models the `IndexError` raised by `resids[0]` when no domain
was defined. -/
inductive LoadError where
  | formatError
  | emptyModel
deriving DecidableEq

/-- `DomDef.transform`: add the offset, clamping the result to a minimum
of 1. -/
def DomDef.transform (offset resid : Int) : Int :=
  if resid + offset < 1 then 1 else resid + offset

/-- One iteration of the line loop in `DomDef.load`. -/
def processLine (offset : Int) (st : LoadSt) (raw : List Char) :
    Except LoadError LoadSt :=
  let line := strip raw
  if line = [] then .ok st
  else if line.head? = some '#' then .ok st
  else
    let fields := words line
    if line.head? = some '@' then
      match fields with
      | [] => .ok st
      | f0 :: restf =>
        .ok { st with compounds := odInsert st.compounds (f0.drop 1) (joinSpace restf) }
    else
      match fields with
      | [name, sf, ef] =>
        match parseInt sf, parseInt ef with
        | some s, some e =>
          .ok { st with
                domains := odInsert st.domains name
                  (DomDef.transform offset s, DomDef.transform offset e),
                domain_order := st.domain_order ++ [name] }
        | _, _ => .error .formatError
      | _ => .error .formatError

/-- The line loop of `DomDef.load`. -/
def processLines (offset : Int) (st : LoadSt) : List (List Char) → Except LoadError LoadSt
  | [] => .ok st
  | l :: ls =>
    match processLine offset st l with
    | .error e => .error e
    | .ok st2 => processLines offset st2 ls

/-- The loaded model (`DomDef` instance after `__init__`). -/
structure DomDef where
  filename : List Char
  offset : Int
  domains : List (List Char × Int × Int)
  compounds : List (List Char × List Char)
  domain_order : List (List Char)
  first : Int
  last : Int
deriving DecidableEq

/-- `numpy.ravel(self.domains.values())`: all transformed residue numbers,
in insertion order. -/
def flatResids (ds : List (List Char × Int × Int)) : List Int :=
  ds.flatMap (fun p => [p.2.1, p.2.2])

/-- `DomDef(filename, offset)` reading a file that holds `content`:
`__init__` plus `DomDef.load`, producing the model or the first error. -/
def DomDef.load (filename : List Char) (offset : Int) (content : List Char) :
    Except LoadError DomDef :=
  match processLines offset ⟨[], [], []⟩ (splitLines content) with
  | .error e => .error e
  | .ok st =>
    match flatResids st.domains with
    | [] => .error .emptyModel
    | r :: rs =>
      .ok { filename := filename, offset := offset, domains := st.domains,
            compounds := st.compounds, domain_order := st.domain_order,
            first := rs.foldl min r, last := rs.foldl max r }

/-- `DomDef._ordered_domains`: iterate the order sequence, looking each name
up in the domain table. -/
def DomDef._ordered_domains (m : DomDef) : List (List Char × Int × Int) :=
  m.domain_order.filterMap (fun n => (odLookup m.domains n).map (fun v => (n, v)))

/-- Python `str.replace(c, r)` for a one-character pattern. -/
def replaceChar (c : Char) (r : List Char) : List Char → List Char
  | [] => []
  | x :: xs => if x = c then r ++ replaceChar c r xs else x :: replaceChar c r xs

def substCharmm (s : List Char) : List Char :=
  replaceChar '!' (lit " .not. ")
    (replaceChar '&' (lit " .and. ") (replaceChar '|' (lit " .or. ") s))

def substVmd (s : List Char) : List Char :=
  replaceChar '!' (lit " not ")
    (replaceChar '&' (lit " and ") (replaceChar '|' (lit " or ") s))

def substPymol (s : List Char) : List Char :=
  replaceChar '!' (lit " not ")
    (replaceChar '&' (lit " and ") (replaceChar '|' (lit " or ") s))

/-- `DomDef._transform(mode, s)`: token substitution, or the `ValueError`
message for an unknown mode. -/
def DomDef._transform (mode s : List Char) : Except (List Char) (List Char) :=
  if mode = lit "charmm" then .ok (substCharmm s)
  else if mode = lit "vmd" then .ok (substVmd s)
  else if mode = lit "pymol" then .ok (substPymol s)
  else .error (lit "mode = " ++ mode ++ lit " not known")

/-- One simple-definition line of `DomDef.write`:
`"%(domname)-11s %(start_resid)5d  %(end_resid)5d"`. -/
def writeDomainLine (n : List Char) (s e : Int) : List Char :=
  padRight n 11 ++ ' ' :: (padLeft (intChars s) 5 ++ ' ' :: ' ' :: padLeft (intChars e) 5)

/-- One compound line of `DomDef.write`: `"@%(domname)-11s  %(definition)s"`. -/
def writeCompoundLine (n d : List Char) : List Char :=
  '@' :: (padRight n 11 ++ ' ' :: ' ' :: d)

def writeHeader (m : DomDef) : List (List Char) :=
  [lit "# $Id: domdef.py 1155 2010-05-17 17:15:26Z oliver $",
   lit "# This file is in a format suitable for scripts/domdef.py",
   lit "# input = " ++ pyRepr m.filename,
   lit "# offset = " ++ intChars m.offset,
   [],
   lit "# name      start    end"]

def writeLines (m : DomDef) : List (List Char) :=
  writeHeader m ++
    (DomDef._ordered_domains m).map (fun p => writeDomainLine p.1 p.2.1 p.2.2) ++
    [lit "# compound statements"] ++
    m.compounds.map (fun p => writeCompoundLine p.1 p.2)

/-- `DomDef.write`: the passthrough serializer.  Returns the model (which the
method leaves untouched) and the full contents written to `fn`. -/
def DomDef.write (m : DomDef) (fn : List Char) : DomDef × List Char :=
  (m, joinLines (writeLines m))

def vmdmacro (n : List Char) (s e : Int) : List Char :=
  lit "atomselect macro " ++ n ++ lit " \x7bresid " ++ intChars s ++ lit " to " ++
    intChars e ++ lit "\x7d"

def vmdcompound (n d : List Char) : List Char :=
  lit "atomselect macro " ++ n ++ lit " \x7b" ++ d ++ lit "\x7d"

def addrepLines (m : DomDef) : List (List Char) :=
  [lit "# functions to display representations",
   lit "puts \x7busage: addrep_domains [colorID [material [rep]]]\x7d",
   lit "proc addrep_domains \x7b\x7bcolor 6\x7d \x7bmaterial AOChalky\x7d \x7brepresentation cartoon\x7d\x7d \x7b",
   lit "  mol color ColorID $color",
   lit "  mol material $material",
   lit "  mol rep $representation",
   lit "  set selections \"" ++ joinSpace m.domain_order ++ lit "\"",
   lit "  foreach sel $selections \x7b",
   lit "    mol selection $sel",
   lit "    mol addrep top",
   lit "  \x7d",
   lit "\x7d"]

/-- `DomDef.write_vmd`: model plus the Tcl lines written. -/
def DomDef.write_vmd (m : DomDef) (fn : List Char) : DomDef × List (List Char) :=
  (m,
    [lit "# $Id$",
     lit "# domain defs from \"" ++ m.filename ++ lit "\"",
     lit "# offset = " ++ intChars m.offset] ++
    (DomDef._ordered_domains m).map (fun p => vmdmacro p.1 p.2.1 p.2.2) ++
    [lit "# compound statements"] ++
    m.compounds.map (fun p => vmdcompound p.1 (substVmd p.2)) ++
    addrepLines m)

/-- `DomDef.write_bendix`: a single line of all start/end residues. -/
def DomDef.write_bendix (m : DomDef) (fn : List Char) : DomDef × List (List Char) :=
  (m, [joinSpace ((DomDef._ordered_domains m).flatMap
        (fun p => [intChars p.2.1, intChars p.2.2]))])

def pymolselection (n : List Char) (s e : Int) : List Char :=
  lit "select " ++ n ++ lit ", polymer and resi " ++ intChars s ++ lit "-" ++ intChars e

def pymolcompound (n d : List Char) : List Char :=
  lit "select " ++ n ++ lit ", " ++ d

/-- `DomDef.write_pymol`. -/
def DomDef.write_pymol (m : DomDef) (fn : List Char) : DomDef × List (List Char) :=
  (m,
    [lit "# $Id$",
     lit "# domain defs from \"" ++ m.filename ++ lit "\"",
     lit "# offset = " ++ intChars m.offset] ++
    (DomDef._ordered_domains m).map (fun p => pymolselection p.1 p.2.1 p.2.2) ++
    [lit "# compound statements"] ++
    m.compounds.map (fun p => pymolcompound p.1 (substPymol p.2)))

def charmmselection (n : List Char) (s e : Int) : List Char :=
  lit "define " ++ padRight n 8 ++ lit " select resid " ++ padLeft (intChars s) 3 ++
    lit " : " ++ padLeft (intChars e) 3 ++ lit "  end"

def charmmcompound (n d : List Char) : List Char :=
  lit "define " ++ padRight n 8 ++ lit " select " ++ d ++ lit "  end"

/-- `DomDef.write_charmm`. -/
def DomDef.write_charmm (m : DomDef) (fn : List Char) : DomDef × List (List Char) :=
  (m,
    [lit "! $Id$",
     lit "! domain defs from \"" ++ m.filename ++ lit "\"",
     lit "! offset = " ++ intChars m.offset] ++
    (DomDef._ordered_domains m).map (fun p => charmmselection p.1 p.2.1 p.2.2) ++
    [lit "! compound statements"] ++
    m.compounds.map (fun p => charmmcompound p.1 (substCharmm p.2)))

/-- One data line of the xvg output: either an `(x, y)` point (rendered by
the code as `"%5d  %g"`) or the pass separator line `"&"`. -/
inductive XvgLine where
  | point (x : Int) (y : ℚ)
  | sep
deriving DecidableEq

/-- The four points the xvg writer emits for one domain. -/
def xvgRect (yval : ℚ) (p : List Char × Int × Int) : List XvgLine :=
  [.point p.2.1 0, .point p.2.1 yval, .point p.2.2 yval, .point p.2.2 0]

/-- The domain loop inside `_write` of `DomDef.write_xvg`, threading
`last_start_resid` and breaking at the first decrease. -/
def xvgLoop (yval : ℚ) : Int → List (List Char × Int × Int) → List XvgLine
  | _, [] => []
  | lastStart, d :: rest =>
    if d.2.1 < lastStart then []
    else xvgRect yval d ++ xvgLoop yval d.2.1 rest

/-- The inner `_write(yval)` of `DomDef.write_xvg`. -/
def xvgPass (m : DomDef) (yval : ℚ) : List XvgLine :=
  .point m.first 0 :: (xvgLoop yval m.first (DomDef._ordered_domains m) ++ [.point m.last 0])

def xvgHeader (m : DomDef) : List (List Char) :=
  [lit "# $Id: domdef.py 1155 2010-05-17 17:15:26Z oliver $",
   lit "# input = " ++ pyRepr m.filename,
   lit "# offset = " ++ intChars m.offset]

/-- The data body of `DomDef.write_xvg`: `_write(0.5)`, the `&` line,
`_write(-0.5)`. -/
def write_xvg_body (m : DomDef) : List XvgLine :=
  xvgPass m (1 / 2) ++ .sep :: xvgPass m (-(1 / 2))

/-- `DomDef.write_xvg`: model plus header lines plus data body. -/
def DomDef.write_xvg (m : DomDef) (fn : List Char) :
    DomDef × List (List Char) × List XvgLine :=
  (m, xvgHeader m, write_xvg_body m)

/-- The domains actually visited by one xvg pass: the walk stops at the
first domain whose start is below the previously emitted start. -/
def xvgVisited : Int → List (List Char × Int × Int) → List (List Char × Int × Int)
  | _, [] => []
  | lastStart, d :: rest =>
    if d.2.1 < lastStart then []
    else d :: xvgVisited d.2.1 rest

/-- A line on which `DomDef.load` raises `formatError`: non-empty after
stripping, not a comment, not a compound, and either not exactly three
whitespace-separated fields or with a second or third field that is not an
integer literal. -/
def badDomainLine (l : List Char) : Bool :=
  let t := strip l
  if t = [] then false
  else if t.head? = some '#' then false
  else if t.head? = some '@' then false
  else
    match words t with
    | [_, sf, ef] => (parseInt sf).isNone || (parseInt ef).isNone
    | _ => true

/-- Spec-side token table for the visualization-macro target (and the
second visualization tool): a literal per-character rewrite. -/
def vmdCharMap (c : Char) : List Char :=
  if c = '|' then lit " or "
  else if c = '&' then lit " and "
  else if c = '!' then lit " not "
  else [c]

/-- Spec-side token table for the simulation-script target. -/
def charmmCharMap (c : Char) : List Char :=
  if c = '|' then lit " .or. "
  else if c = '&' then lit " .and. "
  else if c = '!' then lit " .not. "
  else [c]

/-- Invariant of the loader state, maintained by every line step. -/
structure StInv (st : LoadSt) : Prop where
  dom_wf : ∀ p ∈ st.domains, p.1 ≠ [] ∧ (∀ c ∈ p.1, isSpace c = false) ∧
    p.1.head? ≠ some '#' ∧ p.1.head? ≠ some '@' ∧ 1 ≤ p.2.1 ∧ 1 ≤ p.2.2
  comp_wf : ∀ p ∈ st.compounds, (∀ c ∈ p.1, isSpace c = false) ∧
    ∃ ws, (∀ w ∈ ws, w ≠ [] ∧ ∀ c ∈ w, isSpace c = false) ∧ p.2 = joinSpace ws
  comp_nodup : (st.compounds.map Prod.fst).Nodup
  keys_order : st.domains.map Prod.fst = keepFirst st.domain_order


/-- First-occurrence key accumulation, as performed by repeated
`odInsert`. -/
def foldKeys (ks : List (List Char)) (o : List (List Char)) : List (List Char) :=
  o.foldl (fun ks2 nn => if nn ∈ ks2 then ks2 else ks2 ++ [nn]) ks


deriving instance DecidableEq for Except

/-! ### Lemmas about whitespace splitting and stripping -/

theorem isSpace_eq_false_of_digit {c : Char} (h : isDigitCh c = true) :
    isSpace c = false := by
  simp only [isDigitCh, decide_eq_true_eq] at h
  simp only [isSpace, decide_eq_false_iff_not]
  rintro (rfl | rfl | rfl | rfl | rfl | rfl) <;> revert h <;> decide

theorem ne_of_digit {c d : Char} (h : isDigitCh c = true) (hd : isDigitCh d = false) :
    c ≠ d := by
  rintro rfl
  rw [h] at hd
  exact Bool.noConfusion hd

theorem wordsAux_cons_nonspace (c : Char) (hc : isSpace c = false) (cur cs : List Char) :
    wordsAux cur (c :: cs) = wordsAux (c :: cur) cs := by
  simp [wordsAux, hc]

theorem wordsAux_cons_space_nil (c : Char) (hc : isSpace c = true) (cs : List Char) :
    wordsAux [] (c :: cs) = wordsAux [] cs := by
  simp [wordsAux, hc]

theorem wordsAux_cons_space_emit (c : Char) (hc : isSpace c = true) (cur cs : List Char)
    (hcur : cur ≠ []) :
    wordsAux cur (c :: cs) = cur.reverse :: wordsAux [] cs := by
  simp [wordsAux, hc, List.isEmpty_iff, hcur]

theorem wordsAux_nil_of_ne (cur : List Char) (hcur : cur ≠ []) :
    wordsAux cur [] = [cur.reverse] := by
  simp [wordsAux, List.isEmpty_iff, hcur]

theorem wordsAux_eat_word (w : List Char) (hw : ∀ c ∈ w, isSpace c = false)
    (cur cs : List Char) :
    wordsAux cur (w ++ cs) = wordsAux (w.reverse ++ cur) cs := by
  induction w generalizing cur with
  | nil => simp
  | cons a w ih =>
    have ha : isSpace a = false := hw a (by simp)
    rw [List.cons_append, wordsAux_cons_nonspace a ha,
      ih (fun c hc => hw c (by simp [hc])) (a :: cur)]
    simp

theorem wordsAux_space_skip (sp : List Char) (hsp : ∀ c ∈ sp, isSpace c = true)
    (cs : List Char) :
    wordsAux [] (sp ++ cs) = wordsAux [] cs := by
  induction sp with
  | nil => simp
  | cons a sp ih =>
    rw [List.cons_append, wordsAux_cons_space_nil a (hsp a (by simp))]
    exact ih (fun c hc => hsp c (by simp [hc]))

theorem wordsAux_emit (w : List Char) (hw : w ≠ []) (hw2 : ∀ c ∈ w, isSpace c = false)
    (c : Char) (hc : isSpace c = true) (cs : List Char) :
    wordsAux [] (w ++ c :: cs) = w :: wordsAux [] cs := by
  rw [wordsAux_eat_word w hw2, List.append_nil,
    wordsAux_cons_space_emit c hc _ _ (by simp [hw])]
  simp

theorem words_single (w : List Char) (hw : w ≠ []) (hw2 : ∀ c ∈ w, isSpace c = false) :
    words w = [w] := by
  unfold words
  rw [show w = w ++ ([] : List Char) by simp, wordsAux_eat_word w hw2,
    List.append_nil, wordsAux_nil_of_ne _ (by simp [hw])]
  simp

theorem words_word_space (w sp rest : List Char) (hw : w ≠ [])
    (hw2 : ∀ c ∈ w, isSpace c = false) (hsp : sp ≠ []) (hsp2 : ∀ c ∈ sp, isSpace c = true) :
    words (w ++ sp ++ rest) = w :: words rest := by
  match sp, hsp with
  | s :: sp2, _ =>
    have hs : isSpace s = true := hsp2 s (by simp)
    have heq : w ++ (s :: sp2) ++ rest = w ++ s :: (sp2 ++ rest) := by simp
    unfold words
    rw [heq, wordsAux_emit w hw hw2 s hs,
      wordsAux_space_skip sp2 (fun c hc => hsp2 c (by simp [hc]))]

theorem wordsAux_head_of_ne (cs : List Char) :
    ∀ cur, cur ≠ [] → ∃ t ws, wordsAux cur cs = (cur.reverse ++ t) :: ws := by
  induction cs with
  | nil =>
    intro cur hcur
    exact ⟨[], [], by rw [wordsAux_nil_of_ne cur hcur]; simp⟩
  | cons c cs ih =>
    intro cur hcur
    by_cases hc : isSpace c = true
    · exact ⟨[], wordsAux [] cs, by rw [wordsAux_cons_space_emit c hc cur cs hcur]; simp⟩
    · obtain ⟨t, ws, ht⟩ := ih (c :: cur) (by simp)
      refine ⟨c :: t, ws, ?_⟩
      rw [wordsAux_cons_nonspace c (by simpa using hc), ht]
      simp

theorem words_head (c : Char) (hc : isSpace c = false) (rest : List Char) :
    ∃ t ws, words (c :: rest) = (c :: t) :: ws := by
  obtain ⟨t, ws, ht⟩ := wordsAux_head_of_ne rest [c] (by simp)
  rw [words, wordsAux_cons_nonspace c hc [] rest]
  exact ⟨t, ws, by simpa using ht⟩

theorem wordsAux_wf (cs : List Char) :
    ∀ cur, (∀ a ∈ cur, isSpace a = false) →
      ∀ w ∈ wordsAux cur cs, w ≠ [] ∧ ∀ a ∈ w, isSpace a = false := by
  induction cs with
  | nil =>
    intro cur hcur w hw
    match cur, hcur with
    | [], _ => simp [wordsAux] at hw
    | c :: cur2, hcur2 =>
      rw [wordsAux_nil_of_ne _ (by simp)] at hw
      simp only [List.mem_singleton] at hw
      subst hw
      refine ⟨by simp, ?_⟩
      intro a ha
      exact hcur2 a (List.mem_reverse.mp ha)
  | cons c cs ih =>
    intro cur hcur w hw
    by_cases hc : isSpace c = true
    · match cur, hcur with
      | [], _ =>
        rw [wordsAux_cons_space_nil c hc] at hw
        exact ih [] (by simp) w hw
      | x :: cur2, hcur2 =>
        rw [wordsAux_cons_space_emit c hc _ _ (by simp)] at hw
        rcases List.mem_cons.mp hw with rfl | hw2
        · refine ⟨by simp, ?_⟩
          intro a ha
          exact hcur2 a (List.mem_reverse.mp ha)
        · exact ih [] (by simp) w hw2
    · rw [wordsAux_cons_nonspace c (by simpa using hc)] at hw
      refine ih (c :: cur) ?_ w hw
      intro a ha
      rcases List.mem_cons.mp ha with rfl | ha2
      · simpa using hc
      · exact hcur a ha2

theorem words_wf (cs : List Char) :
    ∀ w ∈ words cs, w ≠ [] ∧ ∀ a ∈ w, isSpace a = false :=
  wordsAux_wf cs [] (by simp)

theorem dropTrail_cons_eq (c : Char) (cs : List Char) :
    dropTrail (c :: cs) =
      if dropTrail cs = [] then (if isSpace c then [] else [c]) else c :: dropTrail cs := by
  cases h : dropTrail cs with
  | nil => simp [dropTrail, h]
  | cons d ds => simp [dropTrail, h]

theorem dropTrail_cons_nonspace (c : Char) (hc : isSpace c = false) (cs : List Char) :
    dropTrail (c :: cs) = c :: dropTrail cs := by
  rw [dropTrail_cons_eq]
  by_cases h : dropTrail cs = [] <;> simp [h, hc]

theorem dropTrail_append_space (cs : List Char) (c : Char) (hc : isSpace c = true) :
    dropTrail (cs ++ [c]) = dropTrail cs := by
  induction cs with
  | nil => simp [dropTrail, hc]
  | cons a cs ih =>
    rw [List.cons_append, dropTrail_cons_eq, ih, dropTrail_cons_eq]

theorem dropTrail_append_spaces (sp : List Char) (hsp : ∀ c ∈ sp, isSpace c = true) :
    ∀ cs, dropTrail (cs ++ sp) = dropTrail cs := by
  induction sp with
  | nil => simp
  | cons a sp ih =>
    intro cs
    have heq : cs ++ a :: sp = (cs ++ [a]) ++ sp := by simp
    rw [heq, ih (fun c hc => hsp c (by simp [hc])),
      dropTrail_append_space cs a (hsp a (by simp))]

theorem dropTrail_all_nonspace (cs : List Char) (h : ∀ c ∈ cs, isSpace c = false) :
    dropTrail cs = cs := by
  induction cs with
  | nil => rfl
  | cons a cs ih =>
    rw [dropTrail_cons_nonspace a (h a (by simp)), ih (fun c hc => h c (by simp [hc]))]

theorem dropTrail_concat_nonspace (cs : List Char) (c : Char) (hc : isSpace c = false) :
    dropTrail (cs ++ [c]) = cs ++ [c] := by
  induction cs with
  | nil => simp [dropTrail, hc]
  | cons a cs ih =>
    rw [List.cons_append, dropTrail_cons_eq, ih]
    simp

theorem strip_cons_nonspace (c : Char) (hc : isSpace c = false) (cs : List Char) :
    strip (c :: cs) = c :: dropTrail cs := by
  unfold strip dropLead
  rw [List.dropWhile_cons_of_neg (by simp [hc])]
  exact dropTrail_cons_nonspace c hc cs

theorem strip_all_space (cs : List Char) (h : ∀ c ∈ cs, isSpace c = true) :
    strip cs = [] := by
  unfold strip dropLead
  rw [List.dropWhile_eq_nil_iff.mpr ?_]
  · rfl
  · intro c hc
    simp [h c hc]

/-! ### Lemmas about decimal rendering and parsing -/

theorem digitsToNat_concat (xs : List Char) (c : Char) :
    digitsToNat (xs ++ [c]) = 10 * digitsToNat xs + digitVal c := by
  simp [digitsToNat, List.foldl_append]

theorem digChar_isDigit (n : Nat) : isDigitCh (digChar n) = true := by
  unfold digChar
  split <;> decide

theorem digitVal_digChar (n : Nat) (h : n < 10) : digitVal (digChar n) = n := by
  interval_cases n <;> decide

theorem natCharsAux_spec (fuel : Nat) :
    ∀ n, n < fuel →
      digitsToNat (natCharsAux fuel n) = n ∧ natCharsAux fuel n ≠ [] ∧
        allDigits (natCharsAux fuel n) = true := by
  induction fuel with
  | zero => omega
  | succ fuel ih =>
    intro n hn
    by_cases h : n < 10
    · refine ⟨?_, ?_, ?_⟩ <;>
        simp [natCharsAux, h, digitsToNat, digitVal_digChar n h, allDigits, digChar_isDigit]
    · have hdiv : n / 10 < fuel := by omega
      obtain ⟨h1, h2, h3⟩ := ih (n / 10) hdiv
      refine ⟨?_, ?_, ?_⟩
      · rw [show natCharsAux (fuel + 1) n = natCharsAux fuel (n / 10) ++ [digChar (n % 10)]
            by simp [natCharsAux, h]]
        rw [digitsToNat_concat, h1, digitVal_digChar (n % 10) (by omega)]
        omega
      · simp [natCharsAux, h]
      · rw [show natCharsAux (fuel + 1) n = natCharsAux fuel (n / 10) ++ [digChar (n % 10)]
            by simp [natCharsAux, h]]
        simp only [allDigits, List.all_append] at h3 ⊢
        simp [h3, digChar_isDigit]

theorem natChars_digitsToNat (n : Nat) : digitsToNat (natChars n) = n :=
  (natCharsAux_spec (n + 1) n (by omega)).1

theorem natChars_ne_nil (n : Nat) : natChars n ≠ [] :=
  (natCharsAux_spec (n + 1) n (by omega)).2.1

theorem natChars_allDigits (n : Nat) : allDigits (natChars n) = true :=
  (natCharsAux_spec (n + 1) n (by omega)).2.2

theorem mem_natChars_digit {n : Nat} {c : Char} (hc : c ∈ natChars n) :
    isDigitCh c = true := by
  have h := natChars_allDigits n
  simp only [allDigits, List.all_eq_true] at h
  exact h c hc

theorem parseInt_digits (cs : List Char) (h0 : cs ≠ []) (h1 : allDigits cs = true) :
    parseInt cs = some (digitsToNat cs : Int) := by
  match cs, h0 with
  | c :: rest, _ =>
    have hc : isDigitCh c = true := by
      simp only [allDigits, List.all_eq_true] at h1
      exact h1 c (by simp)
    have hcm : c ≠ '-' := ne_of_digit hc (by decide)
    have hcp : c ≠ '+' := ne_of_digit hc (by decide)
    unfold parseInt
    split
    · simp_all
    · simp_all
    · simp [h0, h1]

theorem parseInt_intChars_pos (i : Int) (h : 1 ≤ i) : parseInt (intChars i) = some i := by
  unfold intChars
  rw [if_neg (by omega)]
  rw [parseInt_digits (natChars i.toNat) (natChars_ne_nil _) (natChars_allDigits _)]
  rw [natChars_digitsToNat]
  congr 1
  omega

theorem intChars_pos_digits (i : Int) (h : 1 ≤ i) :
    ∀ c ∈ intChars i, isDigitCh c = true := by
  intro c hc
  unfold intChars at hc
  rw [if_neg (by omega)] at hc
  exact mem_natChars_digit hc

theorem intChars_pos_nonspace (i : Int) (h : 1 ≤ i) :
    ∀ c ∈ intChars i, isSpace c = false := fun c hc =>
  isSpace_eq_false_of_digit (intChars_pos_digits i h c hc)

theorem intChars_pos_ne_nil (i : Int) (h : 1 ≤ i) : intChars i ≠ [] := by
  unfold intChars
  rw [if_neg (by omega)]
  exact natChars_ne_nil _

/-! ### Lemmas about the ordered-dictionary model -/

theorem odLookup_odInsert_self {β : Type} (m : List (List Char × β)) (k : List Char) (v : β) :
    odLookup (odInsert m k v) k = some v := by
  induction m with
  | nil => simp [odInsert, odLookup]
  | cons p rest ih =>
    by_cases h : p.1 = k
    · simp [odInsert, odLookup, h]
    · simp [odInsert, odLookup, h, ih]

theorem odInsert_map_fst {β : Type} (m : List (List Char × β)) (k : List Char) (v : β) :
    (odInsert m k v).map Prod.fst =
      if k ∈ m.map Prod.fst then m.map Prod.fst else m.map Prod.fst ++ [k] := by
  induction m with
  | nil => simp [odInsert]
  | cons p rest ih =>
    by_cases h : p.1 = k
    · have hk : k ∈ (p :: rest).map Prod.fst := by
        simp only [List.map_cons, List.mem_cons]
        exact Or.inl h.symm
      rw [if_pos hk, show odInsert (p :: rest) k v = (k, v) :: rest from by simp [odInsert, h]]
      simp [h]
    · simp only [odInsert, h, if_false, List.map_cons, ih]
      by_cases h2 : k ∈ rest.map Prod.fst
      · simp [h2, Ne.symm h]
      · simp [h2, Ne.symm h]

theorem mem_odInsert {β : Type} {m : List (List Char × β)} {k : List Char} {v : β}
    {p : List Char × β} (hp : p ∈ odInsert m k v) : p ∈ m ∨ p = (k, v) := by
  induction m with
  | nil => simp [odInsert] at hp; simp [hp]
  | cons q rest ih =>
    by_cases h : q.1 = k
    · simp only [odInsert, h, if_true, List.mem_cons] at hp
      rcases hp with rfl | hp
      · simp
      · exact Or.inl (by simp [hp])
    · simp only [odInsert, h, if_false, List.mem_cons] at hp
      rcases hp with rfl | hp
      · exact Or.inl (by simp)
      · rcases ih hp with h2 | h2
        · exact Or.inl (by simp [h2])
        · exact Or.inr h2

theorem odInsert_of_not_mem {β : Type} (m : List (List Char × β)) (k : List Char) (v : β)
    (h : k ∉ m.map Prod.fst) : odInsert m k v = m ++ [(k, v)] := by
  induction m with
  | nil => simp [odInsert]
  | cons p rest ih =>
    simp only [List.map_cons, List.mem_cons] at h
    push_neg at h
    simp only [odInsert, Ne.symm h.1, if_false, List.cons_append]
    rw [ih h.2]

theorem odLookup_eq_some_of_mem_keys {β : Type} (m : List (List Char × β)) (k : List Char)
    (h : k ∈ m.map Prod.fst) : ∃ v, odLookup m k = some v := by
  induction m with
  | nil => simp at h
  | cons p rest ih =>
    by_cases h2 : p.1 = k
    · exact ⟨p.2, by simp [odLookup, h2]⟩
    · simp only [List.map_cons, List.mem_cons] at h
      rcases h with h | h
      · exact absurd h.symm h2
      · obtain ⟨v, hv⟩ := ih h
        exact ⟨v, by simp [odLookup, h2, hv]⟩

theorem mem_of_odLookup {β : Type} (m : List (List Char × β)) (k : List Char) (v : β)
    (h : odLookup m k = some v) : (k, v) ∈ m := by
  induction m with
  | nil => simp [odLookup] at h
  | cons p rest ih =>
    rcases p with ⟨a, b⟩
    by_cases h2 : a = k
    · subst h2
      simp only [odLookup, if_pos, Option.some.injEq] at h
      subst h
      exact List.mem_cons_self _ _
    · rw [show odLookup ((a, b) :: rest) k = odLookup rest k by simp [odLookup, h2]] at h
      exact List.mem_cons_of_mem _ (ih h)

theorem keepFirst_mem (x : List Char) (o : List (List Char)) :
    x ∈ keepFirst o ↔ x ∈ o := by
  induction o with
  | nil => simp [keepFirst]
  | cons a o ih =>
    simp only [keepFirst, List.mem_cons, List.mem_filter, decide_eq_true_eq]
    constructor
    · rintro (rfl | ⟨h, _⟩)
      · simp
      · simp [ih.mp h]
    · rintro (rfl | h)
      · simp
      · by_cases hx : x = a
        · simp [hx]
        · exact Or.inr ⟨ih.mpr h, hx⟩

theorem keepFirst_cons (a : List Char) (o : List (List Char)) :
    keepFirst (a :: o) = a :: (keepFirst o).filter (fun y => decide (y ≠ a)) := rfl

theorem keepFirst_append_singleton (o : List (List Char)) (n : List Char) :
    keepFirst (o ++ [n]) = if n ∈ o then keepFirst o else keepFirst o ++ [n] := by
  induction o with
  | nil => simp [keepFirst]
  | cons a o ih =>
    rw [List.cons_append, keepFirst_cons, ih, keepFirst_cons]
    by_cases h : n ∈ o
    · rw [if_pos h, if_pos (List.mem_cons_of_mem a h)]
    · rw [if_neg h]
      by_cases h2 : n = a
      · subst h2
        rw [if_pos (List.mem_cons_self n o), List.filter_append]
        simp
      · rw [if_neg (by simp [h, h2]), List.filter_append]
        simp [h2]

theorem keepFirst_nodup (o : List (List Char)) : (keepFirst o).Nodup := by
  induction o with
  | nil => simp [keepFirst]
  | cons a o ih =>
    simp only [keepFirst, List.nodup_cons]
    refine ⟨?_, List.Nodup.filter _ ih⟩
    intro h
    exact absurd ((List.mem_filter.mp h).2) (by simp)

theorem keepFirst_eq_self_of_nodup (o : List (List Char)) (h : o.Nodup) :
    keepFirst o = o := by
  induction o with
  | nil => rfl
  | cons a o ih =>
    simp only [List.nodup_cons] at h
    simp only [keepFirst, ih h.2]
    congr 1
    rw [List.filter_eq_self]
    intro b hb
    simp only [decide_eq_true_eq]
    rintro rfl
    exact h.1 hb

/-! ### Characterization of single line processing -/

theorem dropLead_head_nonspace (cs : List Char) (c : Char)
    (h : (dropLead cs).head? = some c) : isSpace c = false := by
  induction cs with
  | nil => simp [dropLead] at h
  | cons a cs ih =>
    by_cases ha : isSpace a = true
    · rw [show dropLead (a :: cs) = dropLead cs by simp [dropLead, List.dropWhile_cons, ha]] at h
      exact ih h
    · rw [show dropLead (a :: cs) = a :: cs by
          simp [dropLead, List.dropWhile_cons]
          intro h2
          exact absurd h2 ha] at h
      simp only [List.head?_cons, Option.some.injEq] at h
      subst h
      simpa using ha

theorem dropTrail_head (cs : List Char) (h : dropTrail cs ≠ []) :
    (dropTrail cs).head? = cs.head? := by
  cases cs with
  | nil => simp [dropTrail] at h
  | cons a cs =>
    rw [dropTrail_cons_eq] at h ⊢
    by_cases h2 : dropTrail cs = []
    · by_cases h3 : isSpace a
      · simp [h2, h3] at h
      · simp [h2, h3]
    · simp [h2]

theorem strip_head_nonspace (raw : List Char) (c : Char)
    (h : (strip raw).head? = some c) : isSpace c = false := by
  have hne : strip raw ≠ [] := by
    intro h2
    rw [h2] at h
    simp at h
  unfold strip at h hne
  rw [dropTrail_head _ hne] at h
  exact dropLead_head_nonspace raw c h

theorem strip_words_cons (raw : List Char) (c : Char)
    (h : (strip raw).head? = some c) :
    ∃ t ws, words (strip raw) = (c :: t) :: ws := by
  have hc : isSpace c = false := strip_head_nonspace raw c h
  match hs : strip raw with
  | [] => rw [hs] at h; simp at h
  | a :: rest =>
    rw [hs] at h
    simp only [List.head?_cons, Option.some.injEq] at h
    subst h
    exact words_head _ hc rest

theorem processLine_skip_empty (off : Int) (st : LoadSt) (raw : List Char)
    (h : strip raw = []) : processLine off st raw = .ok st := by
  simp [processLine, h]

theorem processLine_skip_comment (off : Int) (st : LoadSt) (raw : List Char)
    (h : (strip raw).head? = some '#') : processLine off st raw = .ok st := by
  have hne : strip raw ≠ [] := by
    intro h2
    rw [h2] at h
    simp at h
  simp [processLine, hne, h]

theorem processLine_compound (off : Int) (st : LoadSt) (raw : List Char)
    (f0 : List Char) (restf : List (List Char))
    (hh : (strip raw).head? = some '@')
    (hf : words (strip raw) = f0 :: restf) :
    processLine off st raw =
      .ok { st with compounds := odInsert st.compounds (f0.drop 1) (joinSpace restf) } := by
  have hne : strip raw ≠ [] := by
    intro h2
    rw [h2] at hh
    simp at hh
  have hnc : (strip raw).head? ≠ some '#' := by
    rw [hh]
    simp
  simp [processLine, hne, hnc, hh, hf]

theorem processLine_domain (off : Int) (st : LoadSt) (raw : List Char)
    (name sf ef : List Char) (s e : Int)
    (hne : strip raw ≠ []) (hh1 : (strip raw).head? ≠ some '#')
    (hh2 : (strip raw).head? ≠ some '@')
    (hf : words (strip raw) = [name, sf, ef])
    (hs : parseInt sf = some s) (he : parseInt ef = some e) :
    processLine off st raw =
      .ok { st with
            domains := odInsert st.domains name
              (DomDef.transform off s, DomDef.transform off e),
            domain_order := st.domain_order ++ [name] } := by
  simp [processLine, hne, hh1, hh2, hf, hs, he]

theorem processLine_domain_match (off : Int) (st : LoadSt) (raw : List Char)
    (hne : strip raw ≠ []) (hh1 : (strip raw).head? ≠ some '#')
    (hh2 : (strip raw).head? ≠ some '@') :
    processLine off st raw =
      (match words (strip raw) with
       | [name, sf, ef] =>
         match parseInt sf, parseInt ef with
         | some s, some e =>
           .ok { st with
                 domains := odInsert st.domains name
                   (DomDef.transform off s, DomDef.transform off e),
                 domain_order := st.domain_order ++ [name] }
         | _, _ => .error .formatError
       | _ => .error .formatError) := by
  simp [processLine, hne, hh1, hh2]

theorem badDomainLine_unfold (raw : List Char)
    (hne : strip raw ≠ []) (hh1 : (strip raw).head? ≠ some '#')
    (hh2 : (strip raw).head? ≠ some '@') :
    badDomainLine raw =
      (match words (strip raw) with
       | [_, sf, ef] => (parseInt sf).isNone || (parseInt ef).isNone
       | _ => true) := by
  simp [badDomainLine, hne, hh1, hh2]

theorem processLine_of_bad (off : Int) (st : LoadSt) (raw : List Char)
    (h : badDomainLine raw = true) : processLine off st raw = .error .formatError := by
  by_cases h1 : strip raw = []
  · simp [badDomainLine, h1] at h
  by_cases h2 : (strip raw).head? = some '#'
  · simp [badDomainLine, h1, h2] at h
  by_cases h3 : (strip raw).head? = some '@'
  · simp [badDomainLine, h1, h2, h3] at h
  rw [badDomainLine_unfold raw h1 h2 h3] at h
  rw [processLine_domain_match off st raw h1 h2 h3]
  rcases hw : words (strip raw) with _ | ⟨name, rest0⟩
  · simp [hw]
  rcases rest0 with _ | ⟨sf, rest1⟩
  · simp [hw]
  rcases rest1 with _ | ⟨ef, rest2⟩
  · simp [hw]
  rcases rest2 with _ | ⟨x, rest3⟩
  · rw [hw] at h
    simp only at h
    rcases hs : parseInt sf with _ | s
    all_goals rcases he : parseInt ef with _ | e
    all_goals simp [hw, hs, he]
    all_goals simp [hs, he] at h
  · simp [hw]

theorem processLine_of_not_bad (off : Int) (st : LoadSt) (raw : List Char)
    (h : badDomainLine raw = false) : ∃ st2, processLine off st raw = .ok st2 := by
  by_cases h1 : strip raw = []
  · exact ⟨st, processLine_skip_empty off st raw h1⟩
  by_cases h2 : (strip raw).head? = some '#'
  · exact ⟨st, processLine_skip_comment off st raw h2⟩
  by_cases h3 : (strip raw).head? = some '@'
  · obtain ⟨t, ws, hw⟩ := strip_words_cons raw '@' h3
    exact ⟨_, processLine_compound off st raw _ _ h3 hw⟩
  rw [badDomainLine_unfold raw h1 h2 h3] at h
  rw [processLine_domain_match off st raw h1 h2 h3]
  rcases hw : words (strip raw) with _ | ⟨name, rest0⟩
  · rw [hw] at h
    simp at h
  rcases rest0 with _ | ⟨sf, rest1⟩
  · rw [hw] at h
    simp at h
  rcases rest1 with _ | ⟨ef, rest2⟩
  · rw [hw] at h
    simp at h
  rcases rest2 with _ | ⟨x, rest3⟩
  · rw [hw] at h
    simp only [Bool.or_eq_false_iff, Option.isNone_eq_false_iff, Option.isSome_iff_exists] at h
    obtain ⟨⟨s, hs⟩, ⟨e, he⟩⟩ := h
    exact ⟨{ st with
             domains := odInsert st.domains name
               (DomDef.transform off s, DomDef.transform off e),
             domain_order := st.domain_order ++ [name] }, by simp [hw, hs, he]⟩
  · rw [hw] at h
    simp at h

theorem processLines_append (off : Int) (st : LoadSt) (l1 l2 : List (List Char)) :
    processLines off st (l1 ++ l2) =
      (match processLines off st l1 with
       | .error e => .error e
       | .ok st2 => processLines off st2 l2) := by
  induction l1 generalizing st with
  | nil => simp [processLines]
  | cons l ls ih =>
    simp only [List.cons_append, processLines]
    cases processLine off st l with
    | error e => rfl
    | ok st2 => exact ih st2

theorem processLines_error_iff (off : Int) (ls : List (List Char)) :
    ∀ st : LoadSt, processLines off st ls = .error .formatError ↔
      ∃ l ∈ ls, badDomainLine l = true := by
  induction ls with
  | nil => intro st; simp [processLines]
  | cons l ls ih =>
    intro st
    by_cases hb : badDomainLine l = true
    · constructor
      · intro _
        exact ⟨l, by simp, hb⟩
      · intro _
        simp [processLines, processLine_of_bad off st l hb]
    · obtain ⟨st2, hst2⟩ := processLine_of_not_bad off st l (by simpa using hb)
      rw [show processLines off st (l :: ls) = processLines off st2 ls by
        simp [processLines, hst2]]
      rw [ih st2]
      constructor
      · rintro ⟨x, hx, hbx⟩
        exact ⟨x, by simp [hx], hbx⟩
      · rintro ⟨x, hx, hbx⟩
        rcases List.mem_cons.mp hx with rfl | hx2
        · exact absurd hbx hb
        · exact ⟨x, hx2, hbx⟩

theorem processLines_error_format (off : Int) (ls : List (List Char)) :
    ∀ (st : LoadSt) (e : LoadError), processLines off st ls = .error e →
      e = .formatError := by
  induction ls with
  | nil => intro st e h; simp [processLines] at h
  | cons l ls ih =>
    intro st e h
    by_cases hb : badDomainLine l = true
    · rw [show processLines off st (l :: ls) = .error .formatError by
        simp [processLines, processLine_of_bad off st l hb]] at h
      simp only [Except.error.injEq] at h
      exact h.symm
    · obtain ⟨st2, hst2⟩ := processLine_of_not_bad off st l (by simpa using hb)
      rw [show processLines off st (l :: ls) = processLines off st2 ls by
        simp [processLines, hst2]] at h
      exact ih st2 e h

theorem load_formatError_iff (fn : List Char) (off : Int) (content : List Char) :
    DomDef.load fn off content = .error .formatError ↔
      ∃ l ∈ splitLines content, badDomainLine l = true := by
  constructor
  · intro h
    rw [← processLines_error_iff off (splitLines content) ⟨[], [], []⟩]
    unfold DomDef.load at h
    cases hp : processLines off ⟨[], [], []⟩ (splitLines content) with
    | error e =>
      rw [hp] at h
      dsimp only at h
      simp only [Except.error.injEq] at h
      rw [h]
    | ok st =>
      rw [hp] at h
      dsimp only at h
      cases hf : flatResids st.domains with
      | nil => rw [hf] at h; simp at h
      | cons r rs => rw [hf] at h; simp at h
  · intro hex
    have h2 := (processLines_error_iff off (splitLines content) ⟨[], [], []⟩).mpr hex
    unfold DomDef.load
    rw [h2]

theorem processLines_skip (off : Int) (ls : List (List Char)) :
    ∀ st : LoadSt,
      (∀ l ∈ ls, strip l = [] ∨ (strip l).head? = some '#' ∨ (strip l).head? = some '@') →
      ∃ comps, processLines off st ls = .ok ⟨st.domains, comps, st.domain_order⟩ := by
  induction ls with
  | nil => intro st h; exact ⟨st.compounds, by simp [processLines]⟩
  | cons l ls ih =>
    intro st h
    rcases h l (by simp) with h0 | h0 | h0
    · obtain ⟨comps, hc⟩ := ih st (fun x hx => h x (by simp [hx]))
      exact ⟨comps, by simp [processLines, processLine_skip_empty off st l h0, hc]⟩
    · obtain ⟨comps, hc⟩ := ih st (fun x hx => h x (by simp [hx]))
      exact ⟨comps, by simp [processLines, processLine_skip_comment off st l h0, hc]⟩
    · obtain ⟨t, ws, hw⟩ := strip_words_cons l '@' h0
      have hstep := processLine_compound off st l _ _ h0 hw
      obtain ⟨comps, hc⟩ :=
        ih { st with compounds := odInsert st.compounds t (joinSpace ws) }
          (fun x hx => h x (by simp [hx]))
      refine ⟨comps, ?_⟩
      rw [show processLines off st (l :: ls) =
          processLines off { st with compounds := odInsert st.compounds t (joinSpace ws) } ls by
        simp [processLines, hstep]]
      exact hc

theorem load_emptyModel_of_no_domains (fn : List Char) (off : Int) (content : List Char)
    (h : ∀ l ∈ splitLines content,
      strip l = [] ∨ (strip l).head? = some '#' ∨ (strip l).head? = some '@') :
    DomDef.load fn off content = .error .emptyModel := by
  obtain ⟨comps, hp⟩ := processLines_skip off (splitLines content) ⟨[], [], []⟩ h
  unfold DomDef.load
  rw [hp]
  simp [flatResids]

/-! ### The loader invariant -/

theorem transform_ge_one (off r : Int) : 1 ≤ DomDef.transform off r := by
  unfold DomDef.transform
  split <;> omega

theorem transform_zero_id (r : Int) (h : 1 ≤ r) : DomDef.transform 0 r = r := by
  unfold DomDef.transform
  rw [if_neg (by omega)]
  omega

theorem odInsert_nodup_keys {β : Type} (m : List (List Char × β)) (k : List Char) (v : β)
    (h : (m.map Prod.fst).Nodup) : ((odInsert m k v).map Prod.fst).Nodup := by
  rw [odInsert_map_fst]
  by_cases h2 : k ∈ m.map Prod.fst
  · simp [h2, h]
  · simp [h2, List.nodup_append, h]

theorem stInv_init : StInv ⟨[], [], []⟩ :=
  ⟨by simp, by simp, by simp, by simp [keepFirst]⟩

theorem stInv_processLine (off : Int) (st st2 : LoadSt) (raw : List Char)
    (h : processLine off st raw = .ok st2) (hinv : StInv st) : StInv st2 := by
  by_cases h1 : strip raw = []
  · rw [processLine_skip_empty off st raw h1] at h
    simp only [Except.ok.injEq] at h
    subst h
    exact hinv
  by_cases h2 : (strip raw).head? = some '#'
  · rw [processLine_skip_comment off st raw h2] at h
    simp only [Except.ok.injEq] at h
    subst h
    exact hinv
  by_cases h3 : (strip raw).head? = some '@'
  · obtain ⟨t, ws, hw⟩ := strip_words_cons raw '@' h3
    rw [processLine_compound off st raw _ _ h3 hw] at h
    simp only [Except.ok.injEq] at h
    subst h
    have hwordwf := words_wf (strip raw)
    rw [hw] at hwordwf
    refine ⟨hinv.dom_wf, ?_, ?_, hinv.keys_order⟩
    · intro p hp
      rcases mem_odInsert hp with hold | hnew
      · exact hinv.comp_wf p hold
      · subst hnew
        constructor
        · intro c hc
          have hall := (hwordwf ('@' :: t) (by simp)).2
          have hct : c ∈ t := by simpa using hc
          exact hall c (List.mem_cons_of_mem _ hct)
        · exact ⟨ws, fun w hwmem => hwordwf w (by simp [hwmem]), rfl⟩
    · exact odInsert_nodup_keys _ _ _ hinv.comp_nodup
  · -- simple-definition branch
    rw [processLine_domain_match off st raw h1 h2 h3] at h
    obtain ⟨chead, hchead⟩ : ∃ c, (strip raw).head? = some c := by
      cases hs : strip raw with
      | nil => exact absurd hs h1
      | cons a rest => exact ⟨a, rfl⟩
    obtain ⟨t0, ws0, hw0⟩ := strip_words_cons raw chead hchead
    split at h
    swap
    · simp at h
    rename_i name sf ef hw
    split at h
    swap
    · simp at h
    rename_i s e hs he
    simp only [Except.ok.injEq] at h
    subst h
    have hwordwf := words_wf (strip raw)
    rw [hw] at hwordwf
    have hname : name = chead :: t0 := by
      rw [hw0] at hw
      exact ((List.cons.injEq _ _ _ _).mp hw).1.symm
    refine ⟨?_, hinv.comp_wf, hinv.comp_nodup, ?_⟩
    · intro p hp
      rcases mem_odInsert hp with hold | hnew
      · exact hinv.dom_wf p hold
      · subst hnew
        refine ⟨(hwordwf name (by simp)).1, (hwordwf name (by simp)).2, ?_, ?_,
          transform_ge_one off s, transform_ge_one off e⟩
        · rw [hname]
          simp only [List.head?_cons]
          intro hcontra
          simp only [Option.some.injEq] at hcontra
          rw [hcontra] at hchead
          exact h2 hchead
        · rw [hname]
          simp only [List.head?_cons]
          intro hcontra
          simp only [Option.some.injEq] at hcontra
          rw [hcontra] at hchead
          exact h3 hchead
    · show (odInsert st.domains name _).map Prod.fst = keepFirst (st.domain_order ++ [name])
      rw [odInsert_map_fst, keepFirst_append_singleton, hinv.keys_order]
      by_cases hmem : name ∈ keepFirst st.domain_order
      · rw [if_pos hmem, if_pos ((keepFirst_mem name st.domain_order).mp hmem)]
      · rw [if_neg hmem, if_neg (fun hc => hmem ((keepFirst_mem name st.domain_order).mpr hc))]

theorem stInv_processLines (off : Int) (ls : List (List Char)) :
    ∀ st st2 : LoadSt, processLines off st ls = .ok st2 → StInv st → StInv st2 := by
  induction ls with
  | nil =>
    intro st st2 h hinv
    simp only [processLines, Except.ok.injEq] at h
    subst h
    exact hinv
  | cons l ls ih =>
    intro st st2 h hinv
    cases hstep : processLine off st l with
    | error e => rw [show processLines off st (l :: ls) = .error e by
        simp [processLines, hstep]] at h; simp at h
    | ok stm =>
      rw [show processLines off st (l :: ls) = processLines off stm ls by
        simp [processLines, hstep]] at h
      exact ih stm st2 h (stInv_processLine off st stm l hstep hinv)

theorem load_ok_inv (fn : List Char) (off : Int) (content : List Char) (m : DomDef)
    (h : DomDef.load fn off content = .ok m) :
    StInv ⟨m.domains, m.compounds, m.domain_order⟩ ∧ m.domains ≠ [] ∧
      m.offset = off ∧ m.filename = fn ∧
      ∃ r rs, flatResids m.domains = r :: rs ∧
        m.first = rs.foldl min r ∧ m.last = rs.foldl max r := by
  unfold DomDef.load at h
  cases hp : processLines off ⟨[], [], []⟩ (splitLines content) with
  | error e => rw [hp] at h; dsimp only at h; simp at h
  | ok st =>
    rw [hp] at h
    dsimp only at h
    cases hf : flatResids st.domains with
    | nil => rw [hf] at h; simp at h
    | cons r rs =>
      rw [hf] at h
      simp only [Except.ok.injEq] at h
      subst h
      have hinv := stInv_processLines off (splitLines content) ⟨[], [], []⟩ st hp stInv_init
      refine ⟨hinv, ?_, rfl, rfl, r, rs, hf, rfl, rfl⟩
      intro hd
      dsimp only at hd
      rw [hd] at hf
      simp [flatResids] at hf

theorem foldl_min_le (rs : List Int) : ∀ r : Int, ∀ x ∈ r :: rs, rs.foldl min r ≤ x := by
  induction rs with
  | nil =>
    intro r x hx
    simp only [List.mem_singleton] at hx
    subst hx
    simp
  | cons a rs ih =>
    intro r x hx
    have hfold : (a :: rs).foldl min r = rs.foldl min (min r a) := by simp
    rw [hfold]
    rcases List.mem_cons.mp hx with h | h
    · subst h
      calc rs.foldl min (min x a) ≤ min x a := ih _ _ (by simp)
        _ ≤ x := min_le_left x a
    · rcases List.mem_cons.mp h with h2 | h2
      · subst h2
        calc rs.foldl min (min r x) ≤ min r x := ih _ _ (by simp)
          _ ≤ x := min_le_right r x
      · exact ih (min r a) x (by simp [h2])

theorem load_first_le_start (fn : List Char) (off : Int) (content : List Char) (m : DomDef)
    (h : DomDef.load fn off content = .ok m) :
    ∀ p ∈ m.domains, m.first ≤ p.2.1 := by
  obtain ⟨_, _, _, _, r, rs, hf, hfirst, _⟩ := load_ok_inv fn off content m h
  intro p hp
  have hmem : p.2.1 ∈ flatResids m.domains := by
    simp only [flatResids, List.mem_flatMap]
    exact ⟨p, hp, by simp⟩
  rw [hf] at hmem
  rw [hfirst]
  exact foldl_min_le rs r p.2.1 hmem

/-! ### Reparsing the lines produced by the passthrough writer -/

theorem dropTrail_eq_self_of_last (l : List Char)
    (hlast : ∀ c, l.getLast? = some c → isSpace c = false) : dropTrail l = l := by
  induction l with
  | nil => rfl
  | cons a l ih =>
    cases l with
    | nil =>
      have ha : isSpace a = false := hlast a (by simp)
      simp [dropTrail, ha]
    | cons b l2 =>
      rw [dropTrail_cons_eq, ih ?_]
      · simp
      · intro c hc
        apply hlast
        rw [List.getLast?_cons_cons]
        exact hc

theorem strip_eq_self (l : List Char)
    (hhead : ∀ c, l.head? = some c → isSpace c = false)
    (hlast : ∀ c, l.getLast? = some c → isSpace c = false) : strip l = l := by
  cases l with
  | nil => rfl
  | cons a rest =>
    have ha : isSpace a = false := hhead a rfl
    rw [strip_cons_nonspace a ha, dropTrail_eq_self_of_last rest ?_]
    intro c hc
    apply hlast
    cases rest with
    | nil => simp at hc
    | cons b l2 =>
      rw [List.getLast?_cons_cons]
      exact hc

theorem intChars_last_digit (i : Int) (h : 1 ≤ i) :
    ∃ t c, intChars i = t ++ [c] ∧ isDigitCh c = true := by
  have hne := intChars_pos_ne_nil i h
  refine ⟨(intChars i).dropLast, (intChars i).getLast hne, ?_, ?_⟩
  · exact (List.dropLast_append_getLast hne).symm
  · exact intChars_pos_digits i h _ (List.getLast_mem hne)

theorem processLine_three_fields (off : Int) (st : LoadSt)
    (w1 sp1 w2 sp2 w3 : List Char)
    (h1 : w1 ≠ []) (h1b : ∀ c ∈ w1, isSpace c = false)
    (hd1 : w1.head? ≠ some '#') (hd2 : w1.head? ≠ some '@')
    (hsp1 : sp1 ≠ []) (hsp1b : ∀ c ∈ sp1, isSpace c = true)
    (h2 : w2 ≠ []) (h2b : ∀ c ∈ w2, isSpace c = false)
    (hsp2 : sp2 ≠ []) (hsp2b : ∀ c ∈ sp2, isSpace c = true)
    (h3 : w3 ≠ []) (h3b : ∀ c ∈ w3, isSpace c = false)
    (s e : Int) (hps : parseInt w2 = some s) (hpe : parseInt w3 = some e) :
    processLine off st (w1 ++ sp1 ++ (w2 ++ sp2 ++ w3)) =
      .ok { st with
            domains := odInsert st.domains w1
              (DomDef.transform off s, DomDef.transform off e),
            domain_order := st.domain_order ++ [w1] } := by
  have hstrip : strip (w1 ++ sp1 ++ (w2 ++ sp2 ++ w3)) = w1 ++ sp1 ++ (w2 ++ sp2 ++ w3) := by
    apply strip_eq_self
    · intro c hc
      obtain ⟨c1, w1t, rfl⟩ : ∃ c1 w1t, w1 = c1 :: w1t := by
        cases w1 with
        | nil => exact absurd rfl h1
        | cons a b => exact ⟨a, b, rfl⟩
      simp only [List.cons_append, List.head?_cons, Option.some.injEq] at hc
      subst hc
      exact h1b _ (List.mem_cons_self _ _)
    · intro c hc
      obtain ⟨w3t, c3, rfl⟩ : ∃ w3t c3, w3 = w3t ++ [c3] := by
        refine ⟨w3.dropLast, w3.getLast h3, (List.dropLast_append_getLast h3).symm⟩
      rw [show w1 ++ sp1 ++ (w2 ++ sp2 ++ (w3t ++ [c3])) =
          (w1 ++ sp1 ++ (w2 ++ sp2 ++ w3t)) ++ [c3] by simp] at hc
      rw [List.getLast?_concat] at hc
      simp only [Option.some.injEq] at hc
      subst hc
      exact h3b _ (by simp)
  have hwords : words (w1 ++ sp1 ++ (w2 ++ sp2 ++ w3)) = [w1, w2, w3] := by
    rw [words_word_space w1 sp1 _ h1 h1b hsp1 hsp1b,
      words_word_space w2 sp2 _ h2 h2b hsp2 hsp2b,
      words_single w3 h3 h3b]
  have hhead : (w1 ++ sp1 ++ (w2 ++ sp2 ++ w3)).head? = w1.head? := by
    obtain ⟨c1, w1t, rfl⟩ : ∃ c1 w1t, w1 = c1 :: w1t := by
      cases w1 with
      | nil => exact absurd rfl h1
      | cons a b => exact ⟨a, b, rfl⟩
    simp
  apply processLine_domain off st _ w1 w2 w3 s e
  · rw [hstrip]
    intro hcon
    rw [List.append_assoc] at hcon
    exact h1 (List.append_eq_nil.mp hcon).1
  · rw [hstrip, hhead]
    exact hd1
  · rw [hstrip, hhead]
    exact hd2
  · rw [hstrip]
    exact hwords
  · exact hps
  · exact hpe

theorem processLine_writeDomainLine (st : LoadSt) (n : List Char) (s e : Int)
    (hn1 : n ≠ []) (hn2 : ∀ c ∈ n, isSpace c = false)
    (hh1 : n.head? ≠ some '#') (hh2 : n.head? ≠ some '@')
    (hs : 1 ≤ s) (he : 1 ≤ e) :
    processLine 0 st (writeDomainLine n s e) =
      .ok { st with
            domains := odInsert st.domains n (s, e),
            domain_order := st.domain_order ++ [n] } := by
  have hline : writeDomainLine n s e =
      n ++ (List.replicate (11 - n.length) ' ' ++ ' ' :: List.replicate (5 - (intChars s).length) ' ') ++
        (intChars s ++ (' ' :: ' ' :: List.replicate (5 - (intChars e).length) ' ') ++ intChars e) := by
    simp [writeDomainLine, padRight, padLeft]
  have hsp1b : ∀ c ∈ (List.replicate (11 - n.length) ' ' ++
      ' ' :: List.replicate (5 - (intChars s).length) ' ' : List Char), isSpace c = true := by
    intro c hc
    simp only [List.mem_append, List.mem_cons, List.mem_replicate] at hc
    rcases hc with ⟨_, rfl⟩ | rfl | ⟨_, rfl⟩ <;> rfl
  have hsp2b : ∀ c ∈ (' ' :: ' ' :: List.replicate (5 - (intChars e).length) ' ' : List Char),
      isSpace c = true := by
    intro c hc
    simp only [List.mem_cons, List.mem_replicate] at hc
    rcases hc with rfl | rfl | ⟨_, rfl⟩ <;> rfl
  rw [hline, processLine_three_fields 0 st _ _ _ _ _ hn1 hn2 hh1 hh2 (by simp) hsp1b
    (intChars_pos_ne_nil s hs) (intChars_pos_nonspace s hs) (by simp) hsp2b
    (intChars_pos_ne_nil e he) (intChars_pos_nonspace e he) s e
    (parseInt_intChars_pos s hs) (parseInt_intChars_pos e he),
    transform_zero_id s hs, transform_zero_id e he]

theorem words_joinSpace (ws : List (List Char))
    (h : ∀ w ∈ ws, w ≠ [] ∧ ∀ c ∈ w, isSpace c = false) :
    words (joinSpace ws) = ws := by
  induction ws with
  | nil => simp [joinSpace, words, wordsAux]
  | cons w ws ih =>
    cases ws with
    | nil =>
      rw [show joinSpace [w] = w from rfl]
      exact words_single w (h w (by simp)).1 (h w (by simp)).2
    | cons w2 ws2 =>
      rw [show joinSpace (w :: w2 :: ws2) = w ++ [' '] ++ joinSpace (w2 :: ws2) by
        simp [joinSpace]]
      rw [words_word_space w [' '] _ (h w (by simp)).1 (h w (by simp)).2 (by simp)
        (by intro c hc; simp only [List.mem_singleton] at hc; subst hc; rfl)]
      rw [ih (fun x hx => h x (by simp [hx]))]

theorem joinSpace_getLast_nonspace (ws : List (List Char))
    (h : ∀ w ∈ ws, w ≠ [] ∧ ∀ c ∈ w, isSpace c = false) (hne : ws ≠ []) :
    ∃ t c, joinSpace ws = t ++ [c] ∧ isSpace c = false := by
  induction ws with
  | nil => exact absurd rfl hne
  | cons w ws ih =>
    cases ws with
    | nil =>
      have hw := h w (by simp)
      refine ⟨w.dropLast, w.getLast hw.1, ?_, hw.2 _ (List.getLast_mem hw.1)⟩
      rw [show joinSpace [w] = w from rfl]
      exact (List.dropLast_append_getLast hw.1).symm
    | cons w2 ws2 =>
      obtain ⟨t, c, ht, hc⟩ := ih (fun x hx => h x (by simp [hx])) (by simp)
      refine ⟨w ++ ' ' :: t, c, ?_, hc⟩
      rw [show joinSpace (w :: w2 :: ws2) = w ++ ' ' :: joinSpace (w2 :: ws2) from rfl, ht]
      simp

theorem joinSpace_chars (ws : List (List Char))
    (h : ∀ w ∈ ws, ∀ c ∈ w, isSpace c = false) :
    ∀ c ∈ joinSpace ws, c = ' ' ∨ isSpace c = false := by
  induction ws with
  | nil => simp [joinSpace]
  | cons w ws ih =>
    cases ws with
    | nil =>
      intro c hc
      rw [show joinSpace [w] = w from rfl] at hc
      exact Or.inr (h w (by simp) c hc)
    | cons w2 ws2 =>
      intro c hc
      rw [show joinSpace (w :: w2 :: ws2) = w ++ ' ' :: joinSpace (w2 :: ws2) from rfl] at hc
      rcases List.mem_append.mp hc with hc2 | hc2
      · exact Or.inr (h w (by simp) c hc2)
      · rcases List.mem_cons.mp hc2 with rfl | hc3
        · exact Or.inl rfl
        · exact ih (fun x hx => h x (by simp [hx])) c hc3

theorem processLine_writeCompoundLine (st : LoadSt) (n : List Char)
    (ws : List (List Char)) (hn : ∀ c ∈ n, isSpace c = false)
    (hws : ∀ w ∈ ws, w ≠ [] ∧ ∀ c ∈ w, isSpace c = false) :
    processLine 0 st (writeCompoundLine n (joinSpace ws)) =
      .ok { st with compounds := odInsert st.compounds n (joinSpace ws) } := by
  have hat : isSpace '@' = false := rfl
  cases ws with
  | nil =>
    -- empty definition: the line is '@', the name, then only trailing spaces
    have hline : writeCompoundLine n (joinSpace []) =
        ('@' :: n) ++ (List.replicate (11 - n.length) ' ' ++ [' ', ' ']) := by
      simp [writeCompoundLine, padRight, joinSpace]
    have hstrip : strip (writeCompoundLine n (joinSpace [])) = '@' :: n := by
      rw [hline]
      rw [show ('@' :: n) ++ (List.replicate (11 - n.length) ' ' ++ [' ', ' ']) =
          '@' :: (n ++ (List.replicate (11 - n.length) ' ' ++ [' ', ' '])) by simp]
      rw [strip_cons_nonspace '@' hat]
      rw [dropTrail_append_spaces _ ?_ n, dropTrail_all_nonspace n hn]
      intro c hc
      simp only [List.mem_append, List.mem_cons, List.mem_replicate] at hc
      rcases hc with ⟨_, rfl⟩ | rfl | rfl | hf
      · rfl
      · rfl
      · rfl
      · simp at hf
    have hwords : words (strip (writeCompoundLine n (joinSpace []))) = [('@' :: n)] := by
      rw [hstrip]
      exact words_single _ (by simp) (by
        intro c hc
        rcases List.mem_cons.mp hc with rfl | hc2
        · rfl
        · exact hn c hc2)
    rw [processLine_compound 0 st _ ('@' :: n) [] (by rw [hstrip]; rfl) hwords]
    rfl
  | cons w0 ws2 =>
    have hws2 : ∀ w ∈ w0 :: ws2, w ≠ [] ∧ ∀ c ∈ w, isSpace c = false := hws
    obtain ⟨t, cl, ht, hcl⟩ := joinSpace_getLast_nonspace (w0 :: ws2) hws2 (by simp)
    have hline : writeCompoundLine n (joinSpace (w0 :: ws2)) =
        ('@' :: n) ++ (List.replicate (11 - n.length) ' ' ++ [' ', ' ']) ++
          joinSpace (w0 :: ws2) := by
      simp [writeCompoundLine, padRight]
    have hstrip : strip (writeCompoundLine n (joinSpace (w0 :: ws2))) =
        writeCompoundLine n (joinSpace (w0 :: ws2)) := by
      apply strip_eq_self
      · intro c hc
        rw [hline] at hc
        simp only [List.cons_append, List.head?_cons, Option.some.injEq] at hc
        subst hc
        rfl
      · intro c hc
        rw [hline, ht] at hc
        rw [show ('@' :: n) ++ (List.replicate (11 - n.length) ' ' ++ [' ', ' ']) ++ (t ++ [cl]) =
            (('@' :: n) ++ (List.replicate (11 - n.length) ' ' ++ [' ', ' ']) ++ t) ++ [cl] by
          simp] at hc
        rw [List.getLast?_concat] at hc
        simp only [Option.some.injEq] at hc
        subst hc
        exact hcl
    have hwords : words (strip (writeCompoundLine n (joinSpace (w0 :: ws2)))) =
        ('@' :: n) :: (w0 :: ws2) := by
      rw [hstrip, hline]
      rw [words_word_space ('@' :: n) _ _ (by simp) ?_ (by simp) ?_]
      · rw [words_joinSpace _ hws2]
      · intro c hc
        rcases List.mem_cons.mp hc with rfl | hc2
        · rfl
        · exact hn c hc2
      · intro c hc
        simp only [List.mem_append, List.mem_cons, List.mem_replicate] at hc
        rcases hc with ⟨_, rfl⟩ | rfl | rfl | hf
        · rfl
        · rfl
        · rfl
        · simp at hf
    have hhead : (strip (writeCompoundLine n (joinSpace (w0 :: ws2)))).head? = some '@' := by
      rw [hstrip, hline]
      simp
    rw [processLine_compound 0 st _ ('@' :: n) (w0 :: ws2) hhead hwords]
    rfl

theorem processLine_hash (off : Int) (st : LoadSt) (rest : List Char) :
    processLine off st ('#' :: rest) = .ok st := by
  apply processLine_skip_comment
  rw [strip_cons_nonspace '#' rfl rest]
  rfl

theorem splitLines_line (l : List Char) (rest : List Char) (h : '\n' ∉ l) :
    splitLines (l ++ '\n' :: rest) = l :: splitLines rest := by
  induction l with
  | nil => simp [splitLines]
  | cons c l ih =>
    have hc : ¬c = '\n' := by
      intro e
      exact h (by simp [e])
    have ih2 := ih (fun hm => h (List.mem_cons_of_mem c hm))
    rw [List.cons_append, show splitLines (c :: (l ++ '\n' :: rest)) =
        (match splitLines (l ++ '\n' :: rest) with
         | [] => [[c]]
         | l2 :: ls => (c :: l2) :: ls) by simp [splitLines, hc]]
    rw [ih2]

theorem splitLines_joinLines (ls : List (List Char)) (h : ∀ l ∈ ls, '\n' ∉ l) :
    splitLines (joinLines ls) = ls ++ [[]] := by
  induction ls with
  | nil => simp [joinLines, splitLines]
  | cons l ls ih =>
    rw [show joinLines (l :: ls) = l ++ '\n' :: joinLines ls by simp [joinLines]]
    rw [splitLines_line l _ (h l (by simp)), ih (fun x hx => h x (by simp [hx]))]
    rfl

/-! ### Folding the written tables back into ordered dictionaries -/

theorem foldKeys_eq (o : List (List Char)) :
    ∀ ks : List (List Char),
      foldKeys ks o = ks ++ (keepFirst o).filter (fun x => decide (x ∉ ks)) := by
  induction o with
  | nil => intro ks; simp [foldKeys, keepFirst]
  | cons x o ih =>
    intro ks
    rw [show foldKeys ks (x :: o) = foldKeys (if x ∈ ks then ks else ks ++ [x]) o from rfl]
    by_cases hx : x ∈ ks
    · rw [if_pos hx, ih ks, keepFirst_cons, List.filter_cons, if_neg (by simp [hx]),
        List.filter_filter]
      congr 1
      apply List.filter_congr
      intro y hy
      by_cases hy2 : y ∈ ks
      · simp [hy2]
      · have hyx : y ≠ x := by
          intro e
          subst e
          exact hy2 hx
        simp [hy2, hyx]
    · rw [if_neg hx, ih (ks ++ [x]), keepFirst_cons, List.filter_cons, if_pos (by simp [hx]),
        List.filter_filter]
      rw [show ks ++ [x] ++ (keepFirst o).filter (fun y => decide (y ∉ ks ++ [x])) =
          ks ++ x :: (keepFirst o).filter (fun y => decide (y ∉ ks ++ [x])) by simp]
      congr 2
      apply List.filter_congr
      intro y hy
      by_cases h1 : y = x
      · simp [h1]
      · by_cases h2 : y ∈ ks <;> simp [h1, h2]

theorem foldKeys_nil (o : List (List Char)) : foldKeys [] o = keepFirst o := by
  rw [foldKeys_eq o []]
  simp

theorem foldl_odInsert_keys (pairs : List (List Char × Int × Int)) :
    ∀ acc : List (List Char × Int × Int),
      ((pairs.foldl (fun d p => odInsert d p.1 p.2) acc).map Prod.fst) =
        foldKeys (acc.map Prod.fst) (pairs.map Prod.fst) := by
  induction pairs with
  | nil => intro acc; simp [foldKeys]
  | cons p ps ih =>
    intro acc
    rw [show (p :: ps).foldl (fun d q => odInsert d q.1 q.2) acc =
        ps.foldl (fun d q => odInsert d q.1 q.2) (odInsert acc p.1 p.2) from rfl]
    rw [ih (odInsert acc p.1 p.2), odInsert_map_fst]
    rfl

theorem foldl_odInsert_lookup_pres (d : List (List Char × Int × Int))
    (pairs : List (List Char × Int × Int)) :
    ∀ acc : List (List Char × Int × Int),
      (∀ p ∈ pairs, odLookup d p.1 = some p.2) →
      (∀ p ∈ acc, odLookup d p.1 = some p.2) →
      ∀ p ∈ pairs.foldl (fun dd q => odInsert dd q.1 q.2) acc,
        odLookup d p.1 = some p.2 := by
  induction pairs with
  | nil =>
    intro acc _ hacc p hp
    exact hacc p hp
  | cons q ps ih =>
    intro acc hps hacc p hp
    rw [show (q :: ps).foldl (fun dd r => odInsert dd r.1 r.2) acc =
        ps.foldl (fun dd r => odInsert dd r.1 r.2) (odInsert acc q.1 q.2) from rfl] at hp
    refine ih (odInsert acc q.1 q.2) (fun r hr => hps r (by simp [hr])) ?_ p hp
    intro r hr
    rcases mem_odInsert hr with hold | hnew
    · exact hacc r hold
    · subst hnew
      exact hps q (by simp)

theorem assoc_ext (d1 : List (List Char × Int × Int)) :
    ∀ d2 : List (List Char × Int × Int),
      d1.map Prod.fst = d2.map Prod.fst → (d2.map Prod.fst).Nodup →
      (∀ p ∈ d1, odLookup d2 p.1 = some p.2) → d1 = d2 := by
  induction d1 with
  | nil =>
    intro d2 hk _ _
    cases d2 with
    | nil => rfl
    | cons q d2t => simp at hk
  | cons p d1t ih =>
    intro d2 hk hnd hl
    cases d2 with
    | nil => simp at hk
    | cons q d2t =>
      simp only [List.map_cons, List.cons.injEq] at hk
      have hval := hl p (by simp)
      rw [show odLookup (q :: d2t) p.1 = some q.2 by simp [odLookup, hk.1.symm]] at hval
      simp only [Option.some.injEq] at hval
      have hpq : p = q := by
        rcases p with ⟨p1, p2⟩
        rcases q with ⟨q1, q2⟩
        simp only at hk hval
        simp [hk.1, hval]
      subst hpq
      simp only [List.map_cons, List.nodup_cons] at hnd
      rw [ih d2t hk.2 hnd.2 ?_]
      intro r hr
      have hrk : r.1 ∈ d2t.map Prod.fst := by
        rw [← hk.2]
        exact List.mem_map_of_mem Prod.fst hr
      have hrp : r.1 ≠ p.1 := by
        intro e
        rw [e] at hrk
        exact hnd.1 hrk
      have hpr : ¬p.1 = r.1 := fun e => hrp e.symm
      have hlr := hl r (by simp [hr])
      rw [show odLookup (p :: d2t) r.1 = odLookup d2t r.1 by simp [odLookup, hpr]] at hlr
      exact hlr

theorem foldl_odInsert_fresh (comps : List (List Char × List Char)) :
    ∀ acc : List (List Char × List Char),
      ((acc ++ comps).map Prod.fst).Nodup →
      comps.foldl (fun c p => odInsert c p.1 p.2) acc = acc ++ comps := by
  induction comps with
  | nil => intro acc _; simp
  | cons p ps ih =>
    intro acc hnd
    have hfresh : p.1 ∉ acc.map Prod.fst := by
      intro hmem
      simp only [List.map_append, List.nodup_append] at hnd
      exact hnd.2.2 hmem (by simp)
    rw [show (p :: ps).foldl (fun c q => odInsert c q.1 q.2) acc =
        ps.foldl (fun c q => odInsert c q.1 q.2) (odInsert acc p.1 p.2) from rfl]
    rw [odInsert_of_not_mem acc p.1 p.2 hfresh, ih (acc ++ [p]) (by
      rw [List.append_assoc]
      exact hnd)]
    simp

theorem mem_ordered_domains (m : DomDef) (p : List Char × Int × Int)
    (hp : p ∈ DomDef._ordered_domains m) :
    p.1 ∈ m.domain_order ∧ odLookup m.domains p.1 = some p.2 := by
  unfold DomDef._ordered_domains at hp
  rw [List.mem_filterMap] at hp
  obtain ⟨nn, hnn, heq⟩ := hp
  cases hv : odLookup m.domains nn with
  | none => rw [hv] at heq; simp at heq
  | some v =>
    rw [hv] at heq
    have heq2 : (nn, v) = p := by simpa using heq
    subst heq2
    exact ⟨hnn, hv⟩

theorem filterMap_lookup_map_fst (d : List (List Char × Int × Int)) :
    ∀ o : List (List Char), (∀ nn ∈ o, nn ∈ d.map Prod.fst) →
      (o.filterMap (fun nn => (odLookup d nn).map (fun v => (nn, v)))).map Prod.fst = o := by
  intro o
  induction o with
  | nil => simp
  | cons nn o ih =>
    intro h
    obtain ⟨v, hv⟩ := odLookup_eq_some_of_mem_keys d nn (h nn (by simp))
    rw [show (nn :: o).filterMap (fun x => (odLookup d x).map (fun v => (x, v))) =
        (nn, v) :: o.filterMap (fun x => (odLookup d x).map (fun v => (x, v))) by
      simp [List.filterMap_cons, hv]]
    simp only [List.map_cons]
    rw [ih (fun x hx => h x (by simp [hx]))]

theorem ordered_domains_map_fst (m : DomDef)
    (h : ∀ nn ∈ m.domain_order, nn ∈ m.domains.map Prod.fst) :
    (DomDef._ordered_domains m).map Prod.fst = m.domain_order :=
  filterMap_lookup_map_fst m.domains m.domain_order h

theorem processLines_append_ok (off : Int) (st st2 : LoadSt) (l1 l2 : List (List Char))
    (h : processLines off st l1 = .ok st2) :
    processLines off st (l1 ++ l2) = processLines off st2 l2 := by
  rw [processLines_append, h]

theorem processLines_domain_block (pairs : List (List Char × Int × Int)) :
    ∀ st0 : LoadSt,
      (∀ p ∈ pairs, p.1 ≠ [] ∧ (∀ c ∈ p.1, isSpace c = false) ∧
        p.1.head? ≠ some '#' ∧ p.1.head? ≠ some '@' ∧ 1 ≤ p.2.1 ∧ 1 ≤ p.2.2) →
      processLines 0 st0 (pairs.map (fun p => writeDomainLine p.1 p.2.1 p.2.2)) =
        .ok ⟨pairs.foldl (fun d p => odInsert d p.1 p.2) st0.domains, st0.compounds,
             st0.domain_order ++ pairs.map Prod.fst⟩ := by
  induction pairs with
  | nil =>
    intro st0 _
    simp [processLines]
  | cons p ps ih =>
    intro st0 hwf
    have hp := hwf p (by simp)
    have hstep := processLine_writeDomainLine st0 p.1 p.2.1 p.2.2 hp.1 hp.2.1 hp.2.2.1
      hp.2.2.2.1 hp.2.2.2.2.1 hp.2.2.2.2.2
    rw [List.map_cons, show processLines 0 st0
        (writeDomainLine p.1 p.2.1 p.2.2 :: ps.map (fun q => writeDomainLine q.1 q.2.1 q.2.2)) =
        processLines 0 { st0 with
          domains := odInsert st0.domains p.1 (p.2.1, p.2.2),
          domain_order := st0.domain_order ++ [p.1] }
          (ps.map (fun q => writeDomainLine q.1 q.2.1 q.2.2)) by
      simp [processLines, hstep]]
    rw [ih _ (fun q hq => hwf q (by simp [hq]))]
    simp

theorem processLines_compound_block (comps : List (List Char × List Char)) :
    ∀ st0 : LoadSt,
      (∀ p ∈ comps, (∀ c ∈ p.1, isSpace c = false) ∧
        ∃ ws, (∀ w ∈ ws, w ≠ [] ∧ ∀ c ∈ w, isSpace c = false) ∧ p.2 = joinSpace ws) →
      processLines 0 st0 (comps.map (fun p => writeCompoundLine p.1 p.2)) =
        .ok ⟨st0.domains, comps.foldl (fun c p => odInsert c p.1 p.2) st0.compounds,
             st0.domain_order⟩ := by
  induction comps with
  | nil =>
    intro st0 _
    simp [processLines]
  | cons p ps ih =>
    intro st0 hwf
    obtain ⟨hn, ws, hws, hd⟩ := hwf p (by simp)
    have hstep := processLine_writeCompoundLine st0 p.1 ws hn hws
    rw [← hd] at hstep
    rw [List.map_cons, show processLines 0 st0
        (writeCompoundLine p.1 p.2 :: ps.map (fun q => writeCompoundLine q.1 q.2)) =
        processLines 0 { st0 with compounds := odInsert st0.compounds p.1 p.2 }
          (ps.map (fun q => writeCompoundLine q.1 q.2)) by
      simp [processLines, hstep]]
    rw [ih _ (fun q hq => hwf q (by simp [hq]))]
    rfl

/-! ### The written lines contain no newline characters -/

theorem nonspace_ne_newline {c : Char} (h : isSpace c = false) : c ≠ '\n' := by
  intro e
  subst e
  exact absurd h (by decide)

theorem digit_ne_newline {c : Char} (h : isDigitCh c = true) : c ≠ '\n' :=
  nonspace_ne_newline (isSpace_eq_false_of_digit h)

theorem reprChar_ne_newline (x : Char) : '\n' ∉ reprChar x := by
  unfold reprChar
  split
  · decide
  · split
    · decide
    · split
      · decide
      · split
        · decide
        · split
          · decide
          · intro h
            simp only [List.mem_singleton] at h
            rename_i h1 h2 h3 h4 h5
            exact h3 h.symm

theorem pyRepr_no_newline (fn : List Char) : '\n' ∉ pyRepr fn := by
  unfold pyRepr
  intro h
  rcases List.mem_cons.mp h with h1 | h2
  · exact absurd h1 (by decide)
  · rcases List.mem_append.mp h2 with h3 | h3
    · obtain ⟨x, _, hx⟩ := List.mem_flatMap.mp h3
      exact reprChar_ne_newline x hx
    · simp only [List.mem_singleton] at h3
      exact absurd h3 (by decide)

theorem intChars_no_newline (i : Int) : '\n' ∉ intChars i := by
  intro h
  unfold intChars at h
  split at h
  · rcases List.mem_cons.mp h with h1 | h1
    · exact absurd h1 (by decide)
    · exact digit_ne_newline (mem_natChars_digit h1) rfl
  · exact digit_ne_newline (mem_natChars_digit h) rfl

theorem writeDomainLine_chars (n : List Char) (s e : Int) :
    ∀ c ∈ writeDomainLine n s e, c ∈ n ∨ c = ' ' ∨ c ∈ intChars s ∨ c ∈ intChars e := by
  intro c hc
  unfold writeDomainLine padRight padLeft at hc
  simp only [List.mem_append, List.mem_cons, List.mem_replicate] at hc
  tauto

theorem writeDomainLine_no_newline (n : List Char) (s e : Int)
    (hn : ∀ c ∈ n, isSpace c = false) (hs : 1 ≤ s) (he : 1 ≤ e) :
    '\n' ∉ writeDomainLine n s e := by
  intro h
  rcases writeDomainLine_chars n s e '\n' h with hx | hx | hx | hx
  · exact nonspace_ne_newline (hn _ hx) rfl
  · exact absurd hx (by decide)
  · exact digit_ne_newline (intChars_pos_digits s hs _ hx) rfl
  · exact digit_ne_newline (intChars_pos_digits e he _ hx) rfl

theorem writeCompoundLine_chars (n d : List Char) :
    ∀ c ∈ writeCompoundLine n d, c = '@' ∨ c ∈ n ∨ c = ' ' ∨ c ∈ d := by
  intro c hc
  unfold writeCompoundLine padRight at hc
  simp only [List.mem_cons, List.mem_append, List.mem_replicate] at hc
  tauto

theorem writeCompoundLine_no_newline (n d : List Char)
    (hn : ∀ c ∈ n, isSpace c = false)
    (hd : ∀ c ∈ d, c = ' ' ∨ isSpace c = false) :
    '\n' ∉ writeCompoundLine n d := by
  intro h
  rcases writeCompoundLine_chars n d '\n' h with hx | hx | hx | hx
  · exact absurd hx (by decide)
  · exact nonspace_ne_newline (hn _ hx) rfl
  · exact absurd hx (by decide)
  · rcases hd _ hx with h2 | h2
    · exact absurd h2 (by decide)
    · exact nonspace_ne_newline h2 rfl

theorem writeLines_no_newline (m : DomDef)
    (hinv : StInv ⟨m.domains, m.compounds, m.domain_order⟩) :
    ∀ l ∈ writeLines m, '\n' ∉ l := by
  intro l hl
  unfold writeLines at hl
  rcases List.mem_append.mp hl with h1 | h1
  · rcases List.mem_append.mp h1 with h2 | h2
    · rcases List.mem_append.mp h2 with h3 | h3
      · unfold writeHeader at h3
        simp only [List.mem_cons] at h3
        rcases h3 with rfl | rfl | rfl | rfl | rfl | rfl | h0
        · decide
        · decide
        · intro h
          rcases List.mem_append.mp h with hh | hh
          · exact absurd hh (by decide)
          · exact pyRepr_no_newline m.filename hh
        · intro h
          rcases List.mem_append.mp h with hh | hh
          · exact absurd hh (by decide)
          · exact intChars_no_newline m.offset hh
        · simp
        · decide
        · simp at h0
      · obtain ⟨p, hp, rfl⟩ := List.mem_map.mp h3
        obtain ⟨_, hlook⟩ := mem_ordered_domains m p hp
        have hwf := hinv.dom_wf p (mem_of_odLookup _ _ _ hlook)
        exact writeDomainLine_no_newline p.1 p.2.1 p.2.2 hwf.2.1 hwf.2.2.2.2.1 hwf.2.2.2.2.2
    · simp only [List.mem_singleton] at h2
      subst h2
      decide
  · obtain ⟨p, hp, rfl⟩ := List.mem_map.mp h1
    have hwf := hinv.comp_wf p hp
    obtain ⟨ws, hws, hd⟩ := hwf.2
    refine writeCompoundLine_no_newline p.1 p.2 hwf.1 ?_
    rw [hd]
    exact joinSpace_chars ws (fun w hw => (hws w hw).2)

/-! ### Reloading a written model -/

theorem processLines_header (off : Int) (st : LoadSt) (m : DomDef) :
    processLines off st (writeHeader m) = .ok st := by
  have h1 : processLine off st (lit "# $Id: domdef.py 1155 2010-05-17 17:15:26Z oliver $") =
      .ok st := by
    rw [show lit "# $Id: domdef.py 1155 2010-05-17 17:15:26Z oliver $" =
        '#' :: lit " $Id: domdef.py 1155 2010-05-17 17:15:26Z oliver $" from rfl]
    exact processLine_hash off st _
  have h2 : processLine off st (lit "# This file is in a format suitable for scripts/domdef.py") =
      .ok st := by
    rw [show lit "# This file is in a format suitable for scripts/domdef.py" =
        '#' :: lit " This file is in a format suitable for scripts/domdef.py" from rfl]
    exact processLine_hash off st _
  have h3 : processLine off st (lit "# input = " ++ pyRepr m.filename) = .ok st := by
    rw [show lit "# input = " ++ pyRepr m.filename =
        '#' :: (lit " input = " ++ pyRepr m.filename) from rfl]
    exact processLine_hash off st _
  have h4 : processLine off st (lit "# offset = " ++ intChars m.offset) = .ok st := by
    rw [show lit "# offset = " ++ intChars m.offset =
        '#' :: (lit " offset = " ++ intChars m.offset) from rfl]
    exact processLine_hash off st _
  have h5 : processLine off st [] = .ok st := processLine_skip_empty off st [] rfl
  have h6 : processLine off st (lit "# name      start    end") = .ok st := by
    rw [show lit "# name      start    end" = '#' :: lit " name      start    end" from rfl]
    exact processLine_hash off st _
  simp [writeHeader, processLines, h1, h2, h3, h4, h5, h6]

theorem processLine_marker (off : Int) (st : LoadSt) :
    processLine off st (lit "# compound statements") = .ok st := by
  rw [show lit "# compound statements" = '#' :: lit " compound statements" from rfl]
  exact processLine_hash off st _

theorem write_load_roundtrip (fn : List Char) (off : Int) (content : List Char) (m : DomDef)
    (fn2 : List Char) (h : DomDef.load fn off content = .ok m) :
    ∃ m2, DomDef.load fn2 0 (m.write fn2).2 = .ok m2 ∧
      m2.domains = m.domains ∧ m2.compounds = m.compounds ∧
      m2.domain_order = m.domain_order ∧ m2.first = m.first ∧ m2.last = m.last := by
  obtain ⟨hinv, hdne, hoff, hfn, r, rs, hflat, hfirst, hlast⟩ := load_ok_inv fn off content m h
  have hkeys : m.domains.map Prod.fst = keepFirst m.domain_order := hinv.keys_order
  have horder_mem : ∀ nn ∈ m.domain_order, nn ∈ m.domains.map Prod.fst := by
    intro nn hnn
    rw [hkeys]
    exact (keepFirst_mem nn m.domain_order).mpr hnn
  have hdnodup : (m.domains.map Prod.fst).Nodup := by
    rw [hkeys]
    exact keepFirst_nodup _
  have hnl : ∀ l ∈ writeLines m, '\n' ∉ l := writeLines_no_newline m hinv
  have hsplit : splitLines (m.write fn2).2 = writeLines m ++ [[]] :=
    splitLines_joinLines _ hnl
  have hpairs_wf : ∀ p ∈ DomDef._ordered_domains m, p.1 ≠ [] ∧
      (∀ c ∈ p.1, isSpace c = false) ∧
      p.1.head? ≠ some '#' ∧ p.1.head? ≠ some '@' ∧ 1 ≤ p.2.1 ∧ 1 ≤ p.2.2 := by
    intro p hp
    obtain ⟨_, hlook⟩ := mem_ordered_domains m p hp
    exact hinv.dom_wf p (mem_of_odLookup _ _ _ hlook)
  have hD : (DomDef._ordered_domains m).foldl (fun d p => odInsert d p.1 p.2) [] =
      m.domains := by
    apply assoc_ext
    · rw [foldl_odInsert_keys _ [], show (([] : List (List Char × Int × Int)).map Prod.fst) = []
        from rfl, ordered_domains_map_fst m horder_mem, foldKeys_nil, ← hkeys]
    · exact hdnodup
    · apply foldl_odInsert_lookup_pres m.domains _ [] ?_ (by simp)
      intro p hp
      exact (mem_ordered_domains m p hp).2
  have hC : m.compounds.foldl (fun c p => odInsert c p.1 p.2) [] = m.compounds := by
    have := foldl_odInsert_fresh m.compounds [] (by simpa using hinv.comp_nodup)
    simpa using this
  have hcomp_wf : ∀ p ∈ m.compounds, (∀ c ∈ p.1, isSpace c = false) ∧
      ∃ ws, (∀ w ∈ ws, w ≠ [] ∧ ∀ c ∈ w, isSpace c = false) ∧ p.2 = joinSpace ws :=
    hinv.comp_wf
  -- process the reloaded lines, block by block
  have hlines : writeLines m ++ [[]] = writeHeader m ++
      ((DomDef._ordered_domains m).map (fun p => writeDomainLine p.1 p.2.1 p.2.2) ++
        ([lit "# compound statements"] ++
          (m.compounds.map (fun p => writeCompoundLine p.1 p.2) ++ [[]]))) := by
    unfold writeLines
    simp
  have hmark : ∀ st : LoadSt, processLines 0 st [lit "# compound statements"] = .ok st := by
    intro st
    simp [processLines, processLine_marker]
  have hempty : ∀ st : LoadSt, processLines 0 st [[]] = .ok st := by
    intro st
    simp [processLines, processLine_skip_empty 0 st [] rfl]
  have hblocks : processLines 0 ⟨[], [], []⟩ (writeLines m ++ [[]]) =
      .ok ⟨m.domains, m.compounds, m.domain_order⟩ := by
    rw [hlines]
    rw [processLines_append_ok 0 _ _ _ _ (processLines_header 0 ⟨[], [], []⟩ m)]
    rw [processLines_append_ok 0 _ _ _ _ (processLines_domain_block _ _ hpairs_wf)]
    rw [processLines_append_ok 0 _ _ _ _ (hmark _)]
    rw [processLines_append_ok 0 _ _ _ _ (processLines_compound_block _ _ hcomp_wf)]
    rw [hempty]
    simp only [List.nil_append, hD, hC, ordered_domains_map_fst m horder_mem]
  unfold DomDef.load
  rw [hsplit, hblocks]
  dsimp only
  rw [show flatResids (⟨m.domains, m.compounds, m.domain_order⟩ : LoadSt).domains =
      r :: rs from hflat]
  refine ⟨_, rfl, rfl, rfl, rfl, ?_, ?_⟩
  · rw [hfirst]
  · rw [hlast]

/-! ### Token substitution -/

theorem replaceChar_append (c : Char) (r l1 l2 : List Char) :
    replaceChar c r (l1 ++ l2) = replaceChar c r l1 ++ replaceChar c r l2 := by
  induction l1 with
  | nil => simp [replaceChar]
  | cons x l ih =>
    by_cases h : x = c
    · simp [replaceChar, h, ih]
    · simp [replaceChar, h, ih]

theorem replaceChar_of_not_mem (c : Char) (r : List Char) :
    ∀ l : List Char, c ∉ l → replaceChar c r l = l := by
  intro l
  induction l with
  | nil => intro _; rfl
  | cons x l ih =>
    intro h
    have hx : ¬x = c := by
      intro e
      exact h (by simp [e])
    rw [show replaceChar c r (x :: l) = x :: replaceChar c r l by simp [replaceChar, hx]]
    rw [ih (fun hm => h (List.mem_cons_of_mem x hm))]

theorem substVmd_eq_flatMap (s : List Char) : substVmd s = s.flatMap vmdCharMap := by
  induction s with
  | nil => rfl
  | cons x s ih =>
    unfold substVmd at ih ⊢
    by_cases h1 : x = '|'
    · subst h1
      rw [show replaceChar '|' (lit " or ") ('|' :: s) =
          lit " or " ++ replaceChar '|' (lit " or ") s by simp [replaceChar]]
      rw [replaceChar_append, replaceChar_append,
        show replaceChar '&' (lit " and ") (lit " or ") = lit " or " from rfl,
        show replaceChar '!' (lit " not ") (lit " or ") = lit " or " from rfl, ih]
      rfl
    by_cases h2 : x = '&'
    · subst h2
      rw [show replaceChar '|' (lit " or ") ('&' :: s) =
          '&' :: replaceChar '|' (lit " or ") s by simp [replaceChar]]
      rw [show ∀ t, replaceChar '&' (lit " and ") ('&' :: t) =
          lit " and " ++ replaceChar '&' (lit " and ") t from fun t => by simp [replaceChar]]
      rw [replaceChar_append,
        show replaceChar '!' (lit " not ") (lit " and ") = lit " and " from rfl, ih]
      rfl
    by_cases h3 : x = '!'
    · subst h3
      rw [show replaceChar '|' (lit " or ") ('!' :: s) =
          '!' :: replaceChar '|' (lit " or ") s by simp [replaceChar]]
      rw [show ∀ t, replaceChar '&' (lit " and ") ('!' :: t) =
          '!' :: replaceChar '&' (lit " and ") t from fun t => by simp [replaceChar]]
      rw [show ∀ t, replaceChar '!' (lit " not ") ('!' :: t) =
          lit " not " ++ replaceChar '!' (lit " not ") t from fun t => by simp [replaceChar]]
      rw [ih]
      rfl
    · rw [show replaceChar '|' (lit " or ") (x :: s) =
          x :: replaceChar '|' (lit " or ") s by simp [replaceChar, h1]]
      rw [show ∀ t, replaceChar '&' (lit " and ") (x :: t) =
          x :: replaceChar '&' (lit " and ") t from fun t => by simp [replaceChar, h2]]
      rw [show ∀ t, replaceChar '!' (lit " not ") (x :: t) =
          x :: replaceChar '!' (lit " not ") t from fun t => by simp [replaceChar, h3]]
      rw [ih]
      rw [show (x :: s).flatMap vmdCharMap = vmdCharMap x ++ s.flatMap vmdCharMap by simp]
      rw [show vmdCharMap x = [x] by simp [vmdCharMap, h1, h2, h3]]
      rfl

theorem substCharmm_eq_flatMap (s : List Char) : substCharmm s = s.flatMap charmmCharMap := by
  induction s with
  | nil => rfl
  | cons x s ih =>
    unfold substCharmm at ih ⊢
    by_cases h1 : x = '|'
    · subst h1
      rw [show replaceChar '|' (lit " .or. ") ('|' :: s) =
          lit " .or. " ++ replaceChar '|' (lit " .or. ") s by simp [replaceChar]]
      rw [replaceChar_append, replaceChar_append,
        show replaceChar '&' (lit " .and. ") (lit " .or. ") = lit " .or. " from rfl,
        show replaceChar '!' (lit " .not. ") (lit " .or. ") = lit " .or. " from rfl, ih]
      rfl
    by_cases h2 : x = '&'
    · subst h2
      rw [show replaceChar '|' (lit " .or. ") ('&' :: s) =
          '&' :: replaceChar '|' (lit " .or. ") s by simp [replaceChar]]
      rw [show ∀ t, replaceChar '&' (lit " .and. ") ('&' :: t) =
          lit " .and. " ++ replaceChar '&' (lit " .and. ") t from fun t => by simp [replaceChar]]
      rw [replaceChar_append,
        show replaceChar '!' (lit " .not. ") (lit " .and. ") = lit " .and. " from rfl, ih]
      rfl
    by_cases h3 : x = '!'
    · subst h3
      rw [show replaceChar '|' (lit " .or. ") ('!' :: s) =
          '!' :: replaceChar '|' (lit " .or. ") s by simp [replaceChar]]
      rw [show ∀ t, replaceChar '&' (lit " .and. ") ('!' :: t) =
          '!' :: replaceChar '&' (lit " .and. ") t from fun t => by simp [replaceChar]]
      rw [show ∀ t, replaceChar '!' (lit " .not. ") ('!' :: t) =
          lit " .not. " ++ replaceChar '!' (lit " .not. ") t from fun t => by simp [replaceChar]]
      rw [ih]
      rfl
    · rw [show replaceChar '|' (lit " .or. ") (x :: s) =
          x :: replaceChar '|' (lit " .or. ") s by simp [replaceChar, h1]]
      rw [show ∀ t, replaceChar '&' (lit " .and. ") (x :: t) =
          x :: replaceChar '&' (lit " .and. ") t from fun t => by simp [replaceChar, h2]]
      rw [show ∀ t, replaceChar '!' (lit " .not. ") (x :: t) =
          x :: replaceChar '!' (lit " .not. ") t from fun t => by simp [replaceChar, h3]]
      rw [ih]
      rw [show (x :: s).flatMap charmmCharMap = charmmCharMap x ++ s.flatMap charmmCharMap
        by simp]
      rw [show charmmCharMap x = [x] by simp [charmmCharMap, h1, h2, h3]]
      rfl

theorem substPymol_eq_substVmd (s : List Char) : substPymol s = substVmd s := rfl

theorem vmdCharMap_no_ops (x : Char) :
    '|' ∉ vmdCharMap x ∧ '&' ∉ vmdCharMap x ∧ '!' ∉ vmdCharMap x := by
  unfold vmdCharMap
  split
  · refine ⟨by decide, by decide, by decide⟩
  · split
    · refine ⟨by decide, by decide, by decide⟩
    · split
      · refine ⟨by decide, by decide, by decide⟩
      · rename_i hx1 hx2 hx3
        refine ⟨?_, ?_, ?_⟩ <;> intro h <;> simp only [List.mem_singleton] at h
        · exact hx1 h.symm
        · exact hx2 h.symm
        · exact hx3 h.symm

theorem charmmCharMap_no_ops (x : Char) :
    '|' ∉ charmmCharMap x ∧ '&' ∉ charmmCharMap x ∧ '!' ∉ charmmCharMap x := by
  unfold charmmCharMap
  split
  · refine ⟨by decide, by decide, by decide⟩
  · split
    · refine ⟨by decide, by decide, by decide⟩
    · split
      · refine ⟨by decide, by decide, by decide⟩
      · rename_i hx1 hx2 hx3
        refine ⟨?_, ?_, ?_⟩ <;> intro h <;> simp only [List.mem_singleton] at h
        · exact hx1 h.symm
        · exact hx2 h.symm
        · exact hx3 h.symm

theorem substVmd_no_ops (s : List Char) :
    '|' ∉ substVmd s ∧ '&' ∉ substVmd s ∧ '!' ∉ substVmd s := by
  rw [substVmd_eq_flatMap]
  refine ⟨?_, ?_, ?_⟩ <;> intro h <;> obtain ⟨x, _, hx⟩ := List.mem_flatMap.mp h
  · exact (vmdCharMap_no_ops x).1 hx
  · exact (vmdCharMap_no_ops x).2.1 hx
  · exact (vmdCharMap_no_ops x).2.2 hx

theorem substCharmm_no_ops (s : List Char) :
    '|' ∉ substCharmm s ∧ '&' ∉ substCharmm s ∧ '!' ∉ substCharmm s := by
  rw [substCharmm_eq_flatMap]
  refine ⟨?_, ?_, ?_⟩ <;> intro h <;> obtain ⟨x, _, hx⟩ := List.mem_flatMap.mp h
  · exact (charmmCharMap_no_ops x).1 hx
  · exact (charmmCharMap_no_ops x).2.1 hx
  · exact (charmmCharMap_no_ops x).2.2 hx

theorem substVmd_idem (s : List Char) : substVmd (substVmd s) = substVmd s := by
  obtain ⟨h1, h2, h3⟩ := substVmd_no_ops s
  show replaceChar '!' (lit " not ") (replaceChar '&' (lit " and ")
    (replaceChar '|' (lit " or ") (substVmd s))) = substVmd s
  rw [replaceChar_of_not_mem '|' (lit " or ") _ h1]
  rw [replaceChar_of_not_mem '&' (lit " and ") _ h2]
  rw [replaceChar_of_not_mem '!' (lit " not ") _ h3]

theorem substCharmm_idem (s : List Char) : substCharmm (substCharmm s) = substCharmm s := by
  obtain ⟨h1, h2, h3⟩ := substCharmm_no_ops s
  show replaceChar '!' (lit " .not. ") (replaceChar '&' (lit " .and. ")
    (replaceChar '|' (lit " .or. ") (substCharmm s))) = substCharmm s
  rw [replaceChar_of_not_mem '|' (lit " .or. ") _ h1]
  rw [replaceChar_of_not_mem '&' (lit " .and. ") _ h2]
  rw [replaceChar_of_not_mem '!' (lit " .not. ") _ h3]

/-! ### The xvg walk -/

theorem xvgLoop_eq_visited (yval : ℚ) (ds : List (List Char × Int × Int)) :
    ∀ lastStart : Int,
      xvgLoop yval lastStart ds = (xvgVisited lastStart ds).flatMap (xvgRect yval) := by
  induction ds with
  | nil => intro lastStart; rfl
  | cons d rest ih =>
    intro lastStart
    unfold xvgLoop xvgVisited
    by_cases hlt : d.2.1 < lastStart
    · simp [hlt]
    · simp [hlt, ih d.2.1]

theorem xvgVisited_all (ds : List (List Char × Int × Int)) :
    ∀ lastStart : Int,
      List.Chain (fun u v => u ≤ v) lastStart (ds.map (fun d => d.2.1)) →
      xvgVisited lastStart ds = ds := by
  induction ds with
  | nil => intro lastStart _; rfl
  | cons d rest ih =>
    intro lastStart hch
    rw [List.map_cons, List.chain_cons] at hch
    unfold xvgVisited
    rw [if_neg (by omega), ih d.2.1 hch.2]

theorem xvgVisited_break (pre : List (List Char × Int × Int)) :
    ∀ (lastStart : Int) (d : List Char × Int × Int) (rest : List (List Char × Int × Int)),
      List.Chain (fun u v => u ≤ v) lastStart (pre.map (fun p => p.2.1)) →
      d.2.1 < (pre.map (fun p => p.2.1)).getLastD lastStart →
      xvgVisited lastStart (pre ++ d :: rest) = pre := by
  induction pre with
  | nil =>
    intro lastStart d rest _ hlt
    simp only [List.map_nil, List.getLastD_nil] at hlt
    rw [List.nil_append]
    unfold xvgVisited
    rw [if_pos hlt]
  | cons p pre ih =>
    intro lastStart d rest hch hlt
    rw [List.map_cons, List.chain_cons] at hch
    rw [List.map_cons, List.getLastD_cons] at hlt
    rw [List.cons_append]
    unfold xvgVisited
    rw [if_neg (by omega), ih p.2.1 d rest hch.2 hlt]

theorem chain_le_of_chain_lt : ∀ (l : List Int) (a : Int),
    (∀ x, l.head? = some x → a ≤ x) → List.Chain' (fun u v => u < v) l →
      List.Chain (fun u v => u ≤ v) a l
  | [], _, _, _ => List.Chain.nil
  | [x], a, ha, _ => by
    rw [List.chain_cons]
    exact ⟨ha x rfl, List.Chain.nil⟩
  | x :: y :: l, a, ha, hch => by
    rw [List.chain_cons]
    rw [List.chain'_cons] at hch
    refine ⟨ha x rfl, chain_le_of_chain_lt (y :: l) x ?_ hch.2⟩
    intro z hz
    simp only [List.head?_cons, Option.some.injEq] at hz
    subst hz
    omega

/-! ### Redefinition counting -/

theorem filterMap_filter_name (d : List (List Char × Int × Int)) (name : List Char)
    (v : Int × Int) (hv : odLookup d name = some v) :
    ∀ o : List (List Char),
      (o.filterMap (fun nn => (odLookup d nn).map (fun u => (nn, u)))).filter
          (fun p => decide (p.1 = name)) =
        List.replicate (o.count name) (name, v) := by
  intro o
  induction o with
  | nil => simp
  | cons nn o ih =>
    by_cases hnn : nn = name
    · subst hnn
      rw [show (nn :: o).filterMap (fun x => (odLookup d x).map (fun u => (x, u))) =
          (nn, v) :: o.filterMap (fun x => (odLookup d x).map (fun u => (x, u))) by
        simp [List.filterMap_cons, hv]]
      rw [List.filter_cons_of_pos (by simp), ih, List.count_cons_self]
      rfl
    · rw [List.count_cons_of_ne (fun e => hnn e.symm) o]
      cases hu : odLookup d nn with
      | none =>
        rw [show (nn :: o).filterMap (fun x => (odLookup d x).map (fun u => (x, u))) =
            o.filterMap (fun x => (odLookup d x).map (fun u => (x, u))) by
          simp [List.filterMap_cons, hu]]
        exact ih
      | some u =>
        rw [show (nn :: o).filterMap (fun x => (odLookup d x).map (fun u => (x, u))) =
            (nn, u) :: o.filterMap (fun x => (odLookup d x).map (fun u => (x, u))) by
          simp [List.filterMap_cons, hu]]
        rw [List.filter_cons_of_neg (by simp [hnn]), ih]

/-! ### The claims -/

/-- C1: Round-trip — for every model loaded from a well-formed input in
which no domain name and no compound name is defined more than once (and no
name begins with '#' or '@'), writing the model with the passthrough
serializer (`write`) and reloading the written file with offset 0 yields a
model whose domain table, domain-order sequence, and compound table are
identical to the original. -/
theorem C1_write_load_roundtrip (fn : List Char) (off : Int) (content : List Char)
    (m : DomDef) (fn2 : List Char)
    (hload : DomDef.load fn off content = .ok m)
    (hdup1 : m.domain_order.Nodup)
    (hdup2 : (m.compounds.map Prod.fst).Nodup)
    (hnames1 : ∀ nn ∈ m.domain_order, nn.head? ≠ some '#' ∧ nn.head? ≠ some '@')
    (hnames2 : ∀ p ∈ m.compounds, p.1.head? ≠ some '#' ∧ p.1.head? ≠ some '@') :
    ∃ m2, DomDef.load fn2 0 (m.write fn2).2 = .ok m2 ∧
      m2.domains = m.domains ∧ m2.domain_order = m.domain_order ∧
      m2.compounds = m.compounds := by
  obtain ⟨m2, h1, h2, h3, h4, _, _⟩ := write_load_roundtrip fn off content m fn2 hload
  exact ⟨m2, h1, h2, h4, h3⟩

theorem C1_write_load_roundtrip_witness :
    ∃ m2, DomDef.load (lit "o") 0
        ((DomDef.mk (lit "f") 0 [(lit "A", 10, 20), (lit "B", 25, 30)]
          [(lit "c", lit "A | B")] [lit "A", lit "B"] 10 30).write (lit "o")).2 = .ok m2 ∧
      m2.domains = [(lit "A", 10, 20), (lit "B", 25, 30)] ∧
      m2.domain_order = [lit "A", lit "B"] ∧
      m2.compounds = [(lit "c", lit "A | B")] :=
  C1_write_load_roundtrip (lit "f") 0 (lit "A 10 20\nB 25 30\n@c A | B")
    (DomDef.mk (lit "f") 0 [(lit "A", 10, 20), (lit "B", 25, 30)]
      [(lit "c", lit "A | B")] [lit "A", lit "B"] 10 30) (lit "o")
    (by decide) (by decide) (by decide) (by decide) (by decide)

/-- C2: `transform(resid, offset) = max(1, resid + offset)`, hence always
at least 1; in particular `transform(1, -100) = 1` and
`transform(5, 3) = 8`. -/
theorem C2_transform (resid offset : Int) :
    DomDef.transform offset resid = max 1 (resid + offset) ∧
      1 ≤ DomDef.transform offset resid ∧
      DomDef.transform (-100) 1 = 1 ∧ DomDef.transform 3 5 = 8 := by
  refine ⟨?_, transform_ge_one offset resid, by decide, by decide⟩
  unfold DomDef.transform
  split <;> omega

/-- C3: Token substitution is a literal, target-scoped character rewrite:
for the vmd (and pymol) target it replaces `|`/`&`/`!` with padded
`or`/`and`/`not`, leaving all other characters unchanged, so `"A & B"`
becomes `"A  and  B"`; the charmm target uses `.or.`/`.and.`/`.not.`, so
`"A & B"` becomes `"A  .and.  B"`; every other target name raises the
unknown-target `ValueError`. -/
theorem C3_token_substitution :
    (∀ s, DomDef._transform (lit "vmd") s = .ok (s.flatMap vmdCharMap)) ∧
    (∀ s, DomDef._transform (lit "pymol") s = .ok (s.flatMap vmdCharMap)) ∧
    (∀ s, DomDef._transform (lit "charmm") s = .ok (s.flatMap charmmCharMap)) ∧
    DomDef._transform (lit "vmd") (lit "A & B") = .ok (lit "A  and  B") ∧
    DomDef._transform (lit "charmm") (lit "A & B") = .ok (lit "A  .and.  B") ∧
    (∀ mode s, mode ≠ lit "charmm" → mode ≠ lit "vmd" → mode ≠ lit "pymol" →
      DomDef._transform mode s = .error (lit "mode = " ++ mode ++ lit " not known")) := by
  refine ⟨?_, ?_, ?_, by decide, by decide, ?_⟩
  · intro s
    rw [show DomDef._transform (lit "vmd") s = .ok (substVmd s) from rfl, substVmd_eq_flatMap]
  · intro s
    rw [show DomDef._transform (lit "pymol") s = .ok (substPymol s) from rfl,
      substPymol_eq_substVmd, substVmd_eq_flatMap]
  · intro s
    rw [show DomDef._transform (lit "charmm") s = .ok (substCharmm s) from rfl,
      substCharmm_eq_flatMap]
  · intro mode s h1 h2 h3
    unfold DomDef._transform
    rw [if_neg h1, if_neg h2, if_neg h3]

theorem C3_token_substitution_witness :
    DomDef._transform (lit "tex") (lit "A & B") =
      .error (lit "mode = " ++ lit "tex" ++ lit " not known") :=
  C3_token_substitution.2.2.2.2.2 (lit "tex") (lit "A & B") (by decide) (by decide) (by decide)

/-- C4 counterexample: the claim is false in both directions — a compound
line whose first field after the `@` marker is empty loads without any
error (first conjunct), and a line that does split into exactly three
whitespace-separated fields can still raise `FormatError` when its second
field is not an integer (second and third conjuncts). -/
theorem C4_counterexample :
    (∃ m, DomDef.load (lit "f") 0 (lit "A 1 2\n@ core A") = .ok m ∧
      m.compounds = [([], lit "core A")]) ∧
    (words (strip (lit "A one 2"))).length = 3 ∧
    DomDef.load (lit "g") 0 (lit "A one 2") = .error .formatError := by
  exact ⟨⟨⟨lit "f", 0, [(lit "A", 1, 2)], [([], lit "core A")], [lit "A"], 1, 2⟩,
    by decide, by decide⟩, by decide, by decide⟩

/-- C4 (amended): loading fails with `FormatError` exactly when some
non-comment, non-empty, non-compound line either does not split into
exactly three whitespace-separated fields or has a second or third field
that is not an integer literal; compound lines (even with an empty name
after `@`) never raise, and no partial model is produced (the result is the
error alone). -/
theorem C4_formatError_iff (fn : List Char) (off : Int) (content : List Char) :
    DomDef.load fn off content = .error .formatError ↔
      ∃ l ∈ splitLines content, badDomainLine l = true :=
  load_formatError_iff fn off content

theorem C4_formatError_iff_witness :
    DomDef.load (lit "g") 0 (lit "B 1 2\nA one two") = .error .formatError :=
  (C4_formatError_iff (lit "g") 0 (lit "B 1 2\nA one two")).mpr
    ⟨lit "A one two", by decide, by decide⟩

/-- C5: for every input file containing zero simple domain definitions
(only comments, blank lines, or compound lines), loading raises
`EmptyModelError`. -/
theorem C5_emptyModel (fn : List Char) (off : Int) (content : List Char)
    (h : ∀ l ∈ splitLines content,
      strip l = [] ∨ (strip l).head? = some '#' ∨ (strip l).head? = some '@') :
    DomDef.load fn off content = .error .emptyModel :=
  load_emptyModel_of_no_domains fn off content h

theorem C5_emptyModel_witness :
    DomDef.load (lit "f") 7 (lit "# comment\n\n@core A | B") = .error .emptyModel :=
  C5_emptyModel (lit "f") 7 (lit "# comment\n\n@core A | B") (by decide)

/-- C6: in each pass of the xvg writer over a loaded model, if the domains
in order-sequence order have strictly increasing start residues then every
domain is visited; and whenever the order sequence splits as
`pre ++ d :: rest` with `pre` fully visited (non-decreasing starts from
`first`) and `d`'s start below the previously emitted start, the pass
visits exactly `pre` — `d` and all later domains are not emitted. -/
theorem C6_xvg_early_termination (fn : List Char) (off : Int) (content : List Char)
    (m : DomDef) (hload : DomDef.load fn off content = .ok m) :
    (List.Chain' (fun u v : List Char × Int × Int => u.2.1 < v.2.1)
        (DomDef._ordered_domains m) →
      xvgVisited m.first (DomDef._ordered_domains m) = DomDef._ordered_domains m) ∧
    (∀ pre d rest, DomDef._ordered_domains m = pre ++ d :: rest →
      List.Chain (fun u v => u ≤ v) m.first (pre.map (fun p => p.2.1)) →
      d.2.1 < (pre.map (fun p => p.2.1)).getLastD m.first →
      xvgVisited m.first (DomDef._ordered_domains m) = pre) := by
  constructor
  · intro hch
    apply xvgVisited_all
    apply chain_le_of_chain_lt
    · intro x hx
      cases hd : DomDef._ordered_domains m with
      | nil => rw [hd] at hx; simp at hx
      | cons p ps =>
        rw [hd] at hx
        simp only [List.map_cons, List.head?_cons, Option.some.injEq] at hx
        subst hx
        have hp : p ∈ DomDef._ordered_domains m := by
          rw [hd]
          simp
        obtain ⟨_, hlook⟩ := mem_ordered_domains m p hp
        exact load_first_le_start fn off content m hload p (mem_of_odLookup _ _ _ hlook)
    · exact (List.chain'_map (fun d : List Char × Int × Int => d.2.1)).mpr hch
  · intro pre d rest hsplit hch hlt
    rw [hsplit]
    exact xvgVisited_break pre m.first d rest hch hlt

theorem C6_xvg_early_termination_witness :
    xvgVisited 10 (DomDef._ordered_domains
      (DomDef.mk (lit "f") 0 [(lit "A", 10, 20), (lit "B", 30, 40), (lit "C", 25, 28)] []
        [lit "A", lit "B", lit "C"] 10 40)) =
      [(lit "A", 10, 20), (lit "B", 30, 40)] :=
  (C6_xvg_early_termination (lit "f") 0 (lit "A 10 20\nB 30 40\nC 25 28")
      (DomDef.mk (lit "f") 0 [(lit "A", 10, 20), (lit "B", 30, 40), (lit "C", 25, 28)] []
        [lit "A", lit "B", lit "C"] 10 40) (by decide)).2
    [(lit "A", 10, 20), (lit "B", 30, 40)] (lit "C", 25, 28) [] (by decide)
    (List.Chain.cons (by norm_num) (List.Chain.cons (by norm_num) List.Chain.nil))
    (by decide)

/-- C7: the xvg data body is exactly two passes, first with yval = +0.5 and
then with yval = -0.5, separated by the single `&` line; each pass opens
with the point `(first, 0)`, emits for each visited domain the four points
`(start,0) (start,yval) (end,yval) (end,0)` in that order, and closes with
the point `(last, 0)`. -/
theorem C7_xvg_structure (m : DomDef) :
    write_xvg_body m =
      (XvgLine.point m.first 0 ::
        ((xvgVisited m.first (DomDef._ordered_domains m)).flatMap (xvgRect (1 / 2)) ++
          [XvgLine.point m.last 0])) ++
      XvgLine.sep ::
        (XvgLine.point m.first 0 ::
          ((xvgVisited m.first (DomDef._ordered_domains m)).flatMap (xvgRect (-(1 / 2))) ++
            [XvgLine.point m.last 0])) := by
  unfold write_xvg_body xvgPass
  rw [xvgLoop_eq_visited, xvgLoop_eq_visited]

/-- C8: a simple-definition line always appends its name to the
domain-order sequence while `odInsert` overwrites the table entry in place;
the table lookup after an overwrite yields the last-written value; and a
serializer iterating the order sequence emits a name defined n times
exactly n times, each occurrence carrying the table's current value. -/
theorem C8_redefinition :
    (∀ (off : Int) (st : LoadSt) (raw name sf ef : List Char) (s e : Int),
      strip raw ≠ [] → (strip raw).head? ≠ some '#' → (strip raw).head? ≠ some '@' →
      words (strip raw) = [name, sf, ef] → parseInt sf = some s → parseInt ef = some e →
      processLine off st raw = .ok { st with
        domains := odInsert st.domains name
          (DomDef.transform off s, DomDef.transform off e),
        domain_order := st.domain_order ++ [name] }) ∧
    (∀ (d : List (List Char × Int × Int)) (k : List Char) (v : Int × Int),
      odLookup (odInsert d k v) k = some v) ∧
    (∀ (m : DomDef) (name : List Char) (v : Int × Int),
      odLookup m.domains name = some v →
      (DomDef._ordered_domains m).filter (fun p => decide (p.1 = name)) =
        List.replicate (m.domain_order.count name) (name, v)) := by
  refine ⟨?_, odLookup_odInsert_self, ?_⟩
  · intro off st raw name sf ef s e hne hh1 hh2 hf hs he
    exact processLine_domain off st raw name sf ef s e hne hh1 hh2 hf hs he
  · intro m name v hv
    exact filterMap_filter_name m.domains name v hv m.domain_order

theorem C8_redefinition_witness :
    (DomDef._ordered_domains (DomDef.mk (lit "f") 0
        [(lit "A", 3, 4), (lit "B", 5, 6)] [] [lit "A", lit "A", lit "B"] 3 6)).filter
      (fun p => decide (p.1 = lit "A")) = List.replicate 2 (lit "A", 3, 4) :=
  (C8_redefinition.2.2 (DomDef.mk (lit "f") 0
      [(lit "A", 3, 4), (lit "B", 5, 6)] [] [lit "A", lit "A", lit "B"] 3 6)
    (lit "A") (3, 4) (by decide)).trans (by decide)

/-- C9: the model is immutable under every serializer — each returns the
model component unchanged (in particular, the token substitution inside the
vmd/pymol/charmm writers rebinds only a local variable and never alters the
stored compound definitions). -/
theorem C9_model_immutable (m : DomDef) (fn : List Char) :
    (m.write fn).1 = m ∧ (m.write_vmd fn).1 = m ∧ (m.write_bendix fn).1 = m ∧
    (m.write_pymol fn).1 = m ∧ (m.write_charmm fn).1 = m ∧ (m.write_xvg fn).1 = m :=
  ⟨rfl, rfl, rfl, rfl, rfl, rfl⟩

/-- C10: for every known target the result of token substitution contains
none of the operator characters `|`, `&`, `!`, and therefore substitution
is idempotent: applying it twice yields the same string as applying it
once. -/
theorem C10_no_ops_idempotent (mode s : List Char)
    (hmode : mode = lit "vmd" ∨ mode = lit "pymol" ∨ mode = lit "charmm") :
    ∃ t, DomDef._transform mode s = .ok t ∧
      '|' ∉ t ∧ '&' ∉ t ∧ '!' ∉ t ∧ DomDef._transform mode t = .ok t := by
  rcases hmode with rfl | rfl | rfl
  · refine ⟨substVmd s, rfl, (substVmd_no_ops s).1, (substVmd_no_ops s).2.1,
      (substVmd_no_ops s).2.2, ?_⟩
    rw [show DomDef._transform (lit "vmd") (substVmd s) =
      .ok (substVmd (substVmd s)) from rfl, substVmd_idem]
  · refine ⟨substPymol s, rfl, ?_, ?_, ?_, ?_⟩
    · rw [substPymol_eq_substVmd]
      exact (substVmd_no_ops s).1
    · rw [substPymol_eq_substVmd]
      exact (substVmd_no_ops s).2.1
    · rw [substPymol_eq_substVmd]
      exact (substVmd_no_ops s).2.2
    · rw [show DomDef._transform (lit "pymol") (substPymol s) =
        .ok (substPymol (substPymol s)) from rfl, substPymol_eq_substVmd,
        substPymol_eq_substVmd, substVmd_idem]
  · refine ⟨substCharmm s, rfl, (substCharmm_no_ops s).1, (substCharmm_no_ops s).2.1,
      (substCharmm_no_ops s).2.2, ?_⟩
    rw [show DomDef._transform (lit "charmm") (substCharmm s) =
      .ok (substCharmm (substCharmm s)) from rfl, substCharmm_idem]

theorem C10_no_ops_idempotent_witness :
    ∃ t, DomDef._transform (lit "vmd") (lit "A&B|!C") = .ok t ∧
      '|' ∉ t ∧ '&' ∉ t ∧ '!' ∉ t ∧ DomDef._transform (lit "vmd") t = .ok t :=
  C10_no_ops_idempotent (lit "vmd") (lit "A&B|!C") (Or.inl rfl)
